import Mathlib

/-!
Verification of `capture_network.py` (map-playwright-mcp).

The program's data are JSON-like Python values (the payloads returned by the
remote MCP tool servers).  We embed them as the inductive type `Json` below,
mutually with `JArr` (Python lists of such values) and `JObj` (Python dicts
with string keys, kept in insertion order as an association list).  JSON
numbers are modelled as integers (the statuses, and every value the claims
exercise, are integral); Python floats are outside the model.

Partial Python code (attribute access on a non-dict raises `AttributeError`,
`re.Pattern.search` on a non-string raises `TypeError`) is embedded with
`Except Unit`: `.error ()` models a raised exception that the function does
not catch.
-/

mutual
inductive Json where
  | null : Json
  | bool (b : Bool) : Json
  | num (n : Int) : Json
  | str (s : String) : Json
  | arr (es : JArr) : Json
  | obj (ms : JObj) : Json
  deriving DecidableEq
inductive JArr where
  | nil : JArr
  | cons (hd : Json) (tl : JArr) : JArr
  deriving DecidableEq
inductive JObj where
  | nil : JObj
  | cons (key : String) (val : Json) (tl : JObj) : JObj
  deriving DecidableEq
end

/-- The elements of an embedded Python list, as a Lean list. -/
def JArr.toList : JArr → List Json
  | .nil => []
  | .cons v tl => v :: tl.toList

/-- Build an embedded Python list from a Lean list. -/
def JArr.ofList : List Json → JArr
  | [] => .nil
  | v :: vs => .cons v (JArr.ofList vs)

theorem JArr.toList_ofList (l : List Json) : (JArr.ofList l).toList = l := by
  induction l with
  | nil => rfl
  | cons v vs ih => simp [JArr.ofList, JArr.toList, ih]

/-- Python `dict` lookup on the embedded association list.  Keys of a Python
dict are unique, so first-match lookup is the dict semantics. -/
def JObj.lookup : JObj → String → Option Json
  | .nil, _ => none
  | .cons k v tl, key => if k = key then some v else tl.lookup key

/-- Python truthiness of an embedded value (`bool(x)`): `None`, `False`, `0`,
`""`, `[]` and `\x7b\x7d` are falsy, everything else truthy. -/
def truthy : Json → Bool
  | .null => false
  | .bool b => b
  | .num n => n != 0
  | .str s => s != ""
  | .arr .nil => false
  | .arr (.cons _ _) => true
  | .obj .nil => false
  | .obj (.cons _ _ _) => true

/-- Python `a or b` as a value (returns `a` when truthy, else `b`). -/
def pyOr (a b : Json) : Json := if truthy a then a else b

/-- Python `x.get(key)` on an embedded value: a dict yields the entry (or
`None` when the key is absent, like `dict.get`); calling `.get` on anything
that is not a dict raises `AttributeError`, embedded as `.error ()`. -/
def pyGet (v : Json) (key : String) : Except Unit Json :=
  match v with
  | .obj ms => .ok ((ms.lookup key).getD .null)
  | _ => .error ()

/-- ASCII-range model of Python `str.upper` (all strings the program compares
are ASCII HTTP method names). -/
def asciiUpper (s : String) : String := ⟨s.data.map Char.toUpper⟩

/-- Fuelled digit extraction (the fuel strictly dominates the number, so it
never runs out in `natDigits`). -/
def natDigitsAux : Nat → Nat → List Char
  | 0, _ => []
  | Nat.succ fuel, n =>
    if n < 10 then [Char.ofNat (48 + n)]
    else natDigitsAux fuel (n / 10) ++ [Char.ofNat (48 + n % 10)]

/-- Decimal digits of a natural number, most significant first (no sign,
no leading zeros except for `0` itself). -/
def natDigits (n : Nat) : List Char := natDigitsAux (n + 1) n

/-- Decimal rendering of an integer, as Python `repr`/`json.dumps` print it. -/
def intDump (n : Int) : List Char :=
  if n < 0 then '-' :: natDigits n.natAbs else natDigits n.natAbs

mutual
/-- Model of Python `str(x)` for embedded values (`repr` for the elements of
containers; string escaping inside `repr` is elided, which only affects
strings containing quotes — no claim exercises those). -/
def pyStr : Json → String
  | .null => "None"
  | .bool true => "True"
  | .bool false => "False"
  | .num n => ⟨intDump n⟩
  | .str s => s
  | .arr es => ⟨'[' :: pyReprElems es ++ [']']⟩
  | .obj ms => ⟨'\x7b' :: pyReprMembers ms ++ ['\x7d']⟩
def pyRepr : Json → List Char
  | .null => ['N','o','n','e']
  | .bool true => ['T','r','u','e']
  | .bool false => ['F','a','l','s','e']
  | .num n => intDump n
  | .str s => '\'' :: s.data ++ ['\'']
  | .arr es => '[' :: pyReprElems es ++ [']']
  | .obj ms => '\x7b' :: pyReprMembers ms ++ ['\x7d']
def pyReprElems : JArr → List Char
  | .nil => []
  | .cons v .nil => pyRepr v
  | .cons v tl => pyRepr v ++ ',' :: ' ' :: pyReprElems tl
def pyReprMembers : JObj → List Char
  | .nil => []
  | .cons k v .nil => '\'' :: k.data ++ '\'' :: ':' :: ' ' :: pyRepr v
  | .cons k v tl => '\'' :: k.data ++ '\'' :: ':' :: ' ' :: pyRepr v ++ ',' :: ' ' :: pyReprMembers tl
end

/-- The whitespace `int(s)` strips from both ends of a string: the 25
codepoints CPython 3.11 treats as str whitespace (`U+0009`-`U+000D`, space,
`U+0085`, `U+00A0`, `U+1680`, `U+2000`-`U+200A`, `U+2028`, `U+2029`,
`U+202F`, `U+205F`, `U+3000`), enumerated against the interpreter. -/
def pyIsSpaceChar (c : Char) : Bool :=
  let n := c.toNat
  (9 ≤ n && n ≤ 13) || n = 32 || n = 0x85 || n = 0xA0 || n = 0x1680
    || (0x2000 ≤ n && n ≤ 0x200A) || n = 0x2028 || n = 0x2029 || n = 0x202F
    || n = 0x205F || n = 0x3000

/-- First codepoints of the 66 blocks of Unicode decimal digits (category
Nd) known to CPython 3.11's Unicode database; each block is ten consecutive
codepoints with values 0-9, enumerated against the interpreter. -/
def pyDigitBlocks : List Nat :=
  [0x30, 0x660, 0x6F0, 0x7C0, 0x966, 0x9E6, 0xA66, 0xAE6, 0xB66, 0xBE6,
   0xC66, 0xCE6, 0xD66, 0xDE6, 0xE50, 0xED0, 0xF20, 0x1040, 0x1090, 0x17E0,
   0x1810, 0x1946, 0x19D0, 0x1A80, 0x1A90, 0x1B50, 0x1BB0, 0x1C40, 0x1C50,
   0xA620, 0xA8D0, 0xA900, 0xA9D0, 0xA9F0, 0xAA50, 0xABF0, 0xFF10, 0x104A0,
   0x10D30, 0x11066, 0x110F0, 0x11136, 0x111D0, 0x112F0, 0x11450, 0x114D0,
   0x11650, 0x116C0, 0x11730, 0x118E0, 0x11950, 0x11C50, 0x11D50, 0x11DA0,
   0x16A60, 0x16AC0, 0x16B50, 0x1D7CE, 0x1D7D8, 0x1D7E2, 0x1D7EC, 0x1D7F6,
   0x1E140, 0x1E2F0, 0x1E950, 0x1FBF0]

/-- Decimal value of a Unicode decimal digit (category Nd), as
`Py_UNICODE_TODECIMAL` computes it; `none` for every other character. -/
def pyDigitVal (c : Char) : Option Nat :=
  match pyDigitBlocks.find? (fun s => decide (s ≤ c.toNat) && decide (c.toNat ≤ s + 9)) with
  | some s => some (c.toNat - s)
  | none => none

/-- Digit tail of a base-10 int literal after its first digit: further
digits, with single underscores allowed only between two digits
(PEP 515); `acc` is the value of the digits already read. -/
def pyUDigitsGo (acc : Nat) : List Char → Option Nat
  | [] => some acc
  | '_' :: rest =>
    match rest with
    | [] => none
    | c :: rest2 =>
      match pyDigitVal c with
      | some d => pyUDigitsGo (acc * 10 + d) rest2
      | none => none
  | c :: rest =>
    match pyDigitVal c with
    | some d => pyUDigitsGo (acc * 10 + d) rest
    | none => none

/-- The digit part of a base-10 int literal: one or more Unicode decimal
digits, single underscores only between digits (leading, trailing or
doubled underscores raise). -/
def pyUDigits : List Char → Option Nat
  | [] => none
  | c :: rest =>
    match pyDigitVal c with
    | some d => pyUDigitsGo d rest
    | none => none

/-- Python `int(s)` on a string: strip str-whitespace from both ends, an
optional ASCII sign, then one or more Unicode decimal digits with PEP 515
underscore grouping; anything else raises `ValueError` (modelled as
`none`).  Leading zeros are accepted in base 10. -/
def parsePyInt (cs : List Char) : Option Int :=
  let t := ((cs.dropWhile pyIsSpaceChar).reverse.dropWhile pyIsSpaceChar).reverse
  match t with
  | '-' :: ds => (pyUDigits ds).map (fun n => -(Int.ofNat n))
  | '+' :: ds => (pyUDigits ds).map Int.ofNat
  | ds => (pyUDigits ds).map Int.ofNat

/-- Python `int(x)` on an embedded value: ints pass through, bools coerce to
0/1, strings are parsed, everything else raises `TypeError`/`ValueError`
(modelled as `none`).  Floats are outside the model. -/
def pyIntCoerce : Json → Option Int
  | .num n => some n
  | .bool b => some (if b then 1 else 0)
  | .str s => parsePyInt s.data
  | _ => none

/-!
Record Filter (`filter_network_requests`, capture_network.py lines 134-183).

The URL regex is embedded post-compilation as an abstract match predicate
`Option (String → Bool)` (the value of `re.compile(url_regex).search`, with
the falsy-regex case mapped to `none` as in the source's
`re.compile(url_regex) if url_regex else None`).
-/

/-- Resolved URL of a record: nested-then-flat truthiness fallback with a
final `or ""`, as in `(rec.get("request") or ...).get("url") or rec.get("url") or ""`. -/
def resolveUrlE (r : Json) : Except Unit Json :=
  match pyGet r "request" with
  | .error e => .error e
  | .ok req =>
    match pyGet (pyOr req (.obj .nil)) "url" with
    | .error e => .error e
    | .ok nested =>
      match pyGet r "url" with
      | .error e => .error e
      | .ok flat => .ok (pyOr (pyOr nested flat) (.str ""))

/-- Resolved HTTP method of a record (nested-then-flat truthiness fallback). -/
def resolveMethodE (r : Json) : Except Unit Json :=
  match pyGet r "request" with
  | .error e => .error e
  | .ok req =>
    match pyGet (pyOr req (.obj .nil)) "method" with
    | .error e => .error e
    | .ok nested =>
      match pyGet r "method" with
      | .error e => .error e
      | .ok flat => .ok (pyOr nested flat)

/-- Resolved response status of a record (nested-then-flat truthiness
fallback on the `response` sub-mapping). -/
def resolveStatusE (r : Json) : Except Unit Json :=
  match pyGet r "response" with
  | .error e => .error e
  | .ok resp =>
    match pyGet (pyOr resp (.obj .nil)) "status" with
    | .error e => .error e
    | .ok nested =>
      match pyGet r "status" with
      | .error e => .error e
      | .ok flat => .ok (pyOr nested flat)

/-- URL check: with a compiled pattern, `pattern.search(url_value)` demands a
string argument (a non-string raises `TypeError`) and keeps the record iff
the search matches; with no pattern the record passes. -/
def checkUrl (pat : Option (String → Bool)) (url : Json) : Except Unit Bool :=
  match pat with
  | none => .ok true
  | some p =>
    match url with
    | .str s => .ok (p s)
    | _ => .error ()

/-- Method check: keep unless a (non-empty, upper-cased) method filter is set
and the record's method is falsy or differs case-insensitively. -/
def checkMethod (methodUpper : Option String) (mv : Json) : Bool :=
  match methodUpper with
  | none => true
  | some mf => truthy mv && asciiUpper (pyStr mv) == mf

/-- Lower status bound: enforced only when the bound is set, the resolved
status is not `None`, and `int(status)` succeeds; a coercion failure is
swallowed (`except (TypeError, ValueError): pass`). -/
def checkStatusLow (lo : Option Int) (sv : Json) : Bool :=
  match lo with
  | none => true
  | some bound =>
    if sv = Json.null then true
    else
      match pyIntCoerce sv with
      | some n => !(n < bound)
      | none => true

/-- Upper status bound, symmetric to `checkStatusLow`. -/
def checkStatusHigh (hi : Option Int) (sv : Json) : Bool :=
  match hi with
  | none => true
  | some bound =>
    if sv = Json.null then true
    else
      match pyIntCoerce sv with
      | some n => !(bound < n)
      | none => true

/-- The four filter parameters after the function's preprocessing (compiled
pattern, upper-cased method). -/
structure FilterArgs where
  urlPattern : Option (String → Bool)
  methodUpper : Option String
  statusMin : Option Int
  statusMax : Option Int

/-- One loop iteration of `filter_network_requests`: resolve the three
fields (any `AttributeError` there propagates), then apply the four checks
in order; `true` means the record is appended to the output. -/
def keepsRecord (args : FilterArgs) (r : Json) : Except Unit Bool :=
  match resolveUrlE r with
  | .error e => .error e
  | .ok url =>
    match resolveMethodE r with
    | .error e => .error e
    | .ok mv =>
      match resolveStatusE r with
      | .error e => .error e
      | .ok sv =>
        match checkUrl args.urlPattern url with
        | .error e => .error e
        | .ok uOk =>
          .ok (uOk && checkMethod args.methodUpper mv &&
            checkStatusLow args.statusMin sv && checkStatusHigh args.statusMax sv)

/-- The record loop: records are visited in order and appended when kept. -/
def filterGo (args : FilterArgs) : List Json → Except Unit (List Json)
  | [] => .ok []
  | r :: rs =>
    match keepsRecord args r with
    | .error e => .error e
    | .ok keep =>
      match filterGo args rs with
      | .error e => .error e
      | .ok rest => .ok (if keep then r :: rest else rest)

/-- Preprocessing of the method filter at the top of the function:
`method_filter.upper() if method_filter else None`. -/
def upperMethodFilter (method_filter : Option String) : Option String :=
  match method_filter with
  | some s => if s = "" then none else some (asciiUpper s)
  | none => none

/-- `filter_network_requests` (lines 134-183): preprocess the method filter
(falsy → no filter, else upper-case) and run the record loop.  The compiled
URL pattern is received directly as `url_pattern`. -/
def filter_network_requests (records : List Json) (url_pattern : Option (String → Bool))
    (method_filter : Option String) (status_min status_max : Option Int) :
    Except Unit (List Json) :=
  filterGo ⟨url_pattern, upperMethodFilter method_filter, status_min, status_max⟩ records

/-- A record as the spec's data model describes it: a mapping whose
`request`/`response` fields, when present and truthy, are sub-mappings.
Exactly the records on which the resolution steps cannot raise. -/
def wellFormedRecord (r : Json) : Bool :=
  match r with
  | .obj ms =>
    (match (ms.lookup "request").getD .null with
     | .obj _ => true
     | v => !truthy v) &&
    (match (ms.lookup "response").getD .null with
     | .obj _ => true
     | v => !truthy v)
  | _ => false


theorem filterGo_cons_ok {args : FilterArgs} {r : Json} {rs out : List Json}
    (h : filterGo args (r :: rs) = .ok out) :
    ∃ b rest, keepsRecord args r = .ok b ∧ filterGo args rs = .ok rest ∧
      out = if b then r :: rest else rest := by
  cases hk : keepsRecord args r with
  | error e => simp only [filterGo, hk] at h; exact Except.noConfusion h
  | ok b =>
    cases hf : filterGo args rs with
    | error e => simp only [filterGo, hk, hf] at h; exact Except.noConfusion h
    | ok rest =>
      simp only [filterGo, hk, hf, Except.ok.injEq] at h
      exact ⟨b, rest, rfl, rfl, h.symm⟩

theorem filterGo_mem {args : FilterArgs} {rs out : List Json}
    (h : filterGo args rs = .ok out) (r : Json) :
    r ∈ out ↔ (r ∈ rs ∧ keepsRecord args r = .ok true) := by
  induction rs generalizing out with
  | nil =>
    simp only [filterGo, Except.ok.injEq] at h
    subst h
    simp
  | cons x xs ih =>
    obtain ⟨b, rest, hk, hf, hout⟩ := filterGo_cons_ok h
    subst hout
    have ihr := ih hf
    cases b with
    | true =>
      rw [if_pos rfl]
      constructor
      · intro hmem
        rcases List.mem_cons.mp hmem with rfl | hmem'
        · exact ⟨List.mem_cons_self r xs, hk⟩
        · obtain ⟨hx, hkt⟩ := ihr.mp hmem'
          exact ⟨List.mem_cons_of_mem x hx, hkt⟩
      · rintro ⟨hmem, hkt⟩
        rcases List.mem_cons.mp hmem with rfl | hmem'
        · exact List.mem_cons_self r rest
        · exact List.mem_cons_of_mem x (ihr.mpr ⟨hmem', hkt⟩)
    | false =>
      rw [if_neg (by simp)]
      constructor
      · intro hmem
        obtain ⟨hx, hkt⟩ := ihr.mp hmem
        exact ⟨List.mem_cons_of_mem x hx, hkt⟩
      · rintro ⟨hmem, hkt⟩
        rcases List.mem_cons.mp hmem with rfl | hmem'
        · rw [hkt] at hk
          simp at hk
        · exact ihr.mpr ⟨hmem', hkt⟩

theorem filterGo_ok_sublist {args : FilterArgs} {rs out : List Json}
    (h : filterGo args rs = .ok out) : out.Sublist rs := by
  induction rs generalizing out with
  | nil =>
    simp only [filterGo, Except.ok.injEq] at h
    subst h
    exact List.Sublist.refl []
  | cons x xs ih =>
    obtain ⟨b, rest, _, hf, hout⟩ := filterGo_cons_ok h
    subst hout
    cases b with
    | true =>
      rw [if_pos rfl]
      exact List.Sublist.cons₂ x (ih hf)
    | false =>
      rw [if_neg (by simp)]
      exact List.Sublist.cons x (ih hf)

theorem filterGo_all_kept {args : FilterArgs} {rs : List Json}
    (h : ∀ r ∈ rs, keepsRecord args r = .ok true) :
    filterGo args rs = .ok rs := by
  induction rs with
  | nil => rfl
  | cons x xs ih =>
    simp only [filterGo, h x (List.mem_cons_self x xs),
      ih (fun r hr => h r (List.mem_cons_of_mem x hr))]
    simp

theorem filterGo_ok_processed {args : FilterArgs} {rs out : List Json}
    (h : filterGo args rs = .ok out) :
    ∀ r ∈ rs, ∃ b, keepsRecord args r = .ok b := by
  induction rs generalizing out with
  | nil => intro r hr; cases hr
  | cons x xs ih =>
    obtain ⟨b, rest, hk, hf, _⟩ := filterGo_cons_ok h
    intro r hr
    rcases List.mem_cons.mp hr with rfl | hr'
    · exact ⟨b, hk⟩
    · exact ih hf r hr'

theorem keepsRecord_ok_elim {args : FilterArgs} {r : Json} {b : Bool}
    (h : keepsRecord args r = .ok b) :
    ∃ url mv sv uOk, resolveUrlE r = .ok url ∧ resolveMethodE r = .ok mv ∧
      resolveStatusE r = .ok sv ∧ checkUrl args.urlPattern url = .ok uOk ∧
      b = (uOk && checkMethod args.methodUpper mv &&
        checkStatusLow args.statusMin sv && checkStatusHigh args.statusMax sv) := by
  cases hu : resolveUrlE r with
  | error e => simp only [keepsRecord, hu] at h; exact Except.noConfusion h
  | ok url =>
  cases hm : resolveMethodE r with
  | error e => simp only [keepsRecord, hu, hm] at h; exact Except.noConfusion h
  | ok mv =>
  cases hs : resolveStatusE r with
  | error e => simp only [keepsRecord, hu, hm, hs] at h; exact Except.noConfusion h
  | ok sv =>
  cases hc : checkUrl args.urlPattern url with
  | error e => simp only [keepsRecord, hu, hm, hs, hc] at h; exact Except.noConfusion h
  | ok uOk =>
    simp only [keepsRecord, hu, hm, hs, hc, Except.ok.injEq] at h
    exact ⟨url, mv, sv, uOk, rfl, rfl, rfl, hc, h.symm⟩

theorem keepsRecord_ok_intro {args : FilterArgs} {r : Json} {url mv sv : Json} {uOk : Bool}
    (hu : resolveUrlE r = .ok url) (hm : resolveMethodE r = .ok mv)
    (hs : resolveStatusE r = .ok sv) (hc : checkUrl args.urlPattern url = .ok uOk) :
    keepsRecord args r = .ok (uOk && checkMethod args.methodUpper mv &&
      checkStatusLow args.statusMin sv && checkStatusHigh args.statusMax sv) := by
  simp only [keepsRecord, hu, hm, hs, hc]

theorem pyOr_default_obj {v : Json}
    (h : (match v with | Json.obj _ => true | w => !truthy w) = true) :
    ∃ ms, pyOr v (Json.obj .nil) = Json.obj ms := by
  cases hq : truthy v with
  | false => exact ⟨.nil, by unfold pyOr; rw [hq]; simp⟩
  | true =>
    cases v with
    | obj ms => exact ⟨ms, by unfold pyOr; rw [hq]; simp⟩
    | null => simp [truthy] at hq
    | bool b => simp [hq] at h
    | num n => simp [hq] at h
    | str s => simp [hq] at h
    | arr es => simp [hq] at h

theorem wf_resolves {ms : JObj} (hwf : wellFormedRecord (Json.obj ms) = true) :
    ∃ (msr msp : JObj),
      resolveUrlE (Json.obj ms) = .ok (pyOr
        (pyOr ((msr.lookup "url").getD .null) ((ms.lookup "url").getD .null)) (.str "")) ∧
      resolveMethodE (Json.obj ms) = .ok (pyOr
        ((msr.lookup "method").getD .null) ((ms.lookup "method").getD .null)) ∧
      resolveStatusE (Json.obj ms) = .ok (pyOr
        ((msp.lookup "status").getD .null) ((ms.lookup "status").getD .null)) := by
  simp only [wellFormedRecord, Bool.and_eq_true] at hwf
  obtain ⟨hA, hB⟩ := hwf
  obtain ⟨msr, hr⟩ := pyOr_default_obj hA
  obtain ⟨msp, hp⟩ := pyOr_default_obj hB
  refine ⟨msr, msp, ?_, ?_, ?_⟩
  · simp only [resolveUrlE, pyGet, hr]
  · simp only [resolveMethodE, pyGet, hr]
  · simp only [resolveStatusE, pyGet, hp]

theorem keeps_no_filters {r : Json} (hwf : wellFormedRecord r = true) :
    keepsRecord ⟨none, none, none, none⟩ r = .ok true := by
  cases r with
  | obj ms =>
    obtain ⟨msr, msp, hu, hm, hs⟩ := wf_resolves hwf
    simp only [keepsRecord, hu, hm, hs, checkUrl, checkMethod, checkStatusLow,
      checkStatusHigh, Bool.and_true, Bool.true_and]
  | null => simp [wellFormedRecord] at hwf
  | bool b => simp [wellFormedRecord] at hwf
  | num n => simp [wellFormedRecord] at hwf
  | str s => simp [wellFormedRecord] at hwf
  | arr es => simp [wellFormedRecord] at hwf

/-- C2: with no predicates supplied (no URL pattern, no method filter, no
status bounds), `filter_network_requests` returns its input list unchanged,
same records in the same order, for every list of records (records as the
data model defines them: mappings whose `request`/`response` fields, when
truthy, are sub-mappings — exactly the domain on which the resolution steps
are defined). -/
theorem filter_identity_no_predicates (records : List Json)
    (h : ∀ r ∈ records, wellFormedRecord r = true) :
    filter_network_requests records none none none none = .ok records := by
  show filterGo ⟨none, none, none, none⟩ records = .ok records
  exact filterGo_all_kept (fun r hr => keeps_no_filters (h r hr))

theorem filter_identity_no_predicates_witness :
    filter_network_requests
      [Json.obj (.cons "request" (.obj (.cons "url" (.str "https://a.example/x")
          (.cons "method" (.str "GET") .nil))) (.cons "response" (.obj (.cons "status"
          (.num 200) .nil)) .nil)),
       Json.obj (.cons "status" (.num 404) .nil),
       Json.obj .nil]
      none none none none = .ok
      [Json.obj (.cons "request" (.obj (.cons "url" (.str "https://a.example/x")
          (.cons "method" (.str "GET") .nil))) (.cons "response" (.obj (.cons "status"
          (.num 200) .nil)) .nil)),
       Json.obj (.cons "status" (.num 404) .nil),
       Json.obj .nil] :=
  filter_identity_no_predicates _ (by decide)

/-- C3: for every combination of filter arguments on which the filter
returns (rather than raising), the output is a subsequence of the input:
every output record occurs in the input and relative order is preserved. -/
theorem filter_output_subsequence (records out : List Json)
    (url_pattern : Option (String → Bool)) (method_filter : Option String)
    (status_min status_max : Option Int)
    (h : filter_network_requests records url_pattern method_filter
      status_min status_max = .ok out) :
    out.Sublist records := by
  exact filterGo_ok_sublist h

theorem filter_output_subsequence_witness :
    [Json.obj (.cons "method" (.str "GET") .nil)].Sublist
      [Json.obj (.cons "method" (.str "GET") .nil),
       Json.obj (.cons "method" (.str "POST") .nil)] :=
  filter_output_subsequence _ _ none (some "GET") none none (by rfl)

/-- Status of a record as the status filter sees it: the resolved status
value when resolution succeeds, is not `None`, and `int()` coercion
succeeds; `none` otherwise. -/
def coercedStatus (r : Json) : Option Int :=
  match resolveStatusE r with
  | .ok v => if v = Json.null then none else pyIntCoerce v
  | .error _ => none

/-- C1: for every record list and status range, a record whose resolved
status coerces to an integer outside the range is excluded from the output
(whatever the other filters are), while with only the status filters active
a record whose status is absent or not integer-coercible is never excluded. -/
theorem filter_status_range (records out : List Json)
    (url_pattern : Option (String → Bool)) (method_filter : Option String)
    (lo hi : Int)
    (h : filter_network_requests records url_pattern method_filter
      (some lo) (some hi) = .ok out) :
    (∀ r ∈ records, ∀ n : Int, coercedStatus r = some n →
      (n < lo ∨ hi < n) → r ∉ out)
    ∧ (url_pattern = none → method_filter = none →
        ∀ r ∈ records, coercedStatus r = none → r ∈ out) := by
  replace h : filterGo ⟨url_pattern, upperMethodFilter method_filter,
      some lo, some hi⟩ records = .ok out := h
  constructor
  · intro r _ n hst hrange hmem
    have hkeep := ((filterGo_mem h r).mp hmem).2
    obtain ⟨url, mv, sv, uOk, hu, hm, hs, hc, hb⟩ := keepsRecord_ok_elim hkeep
    simp only [coercedStatus, hs] at hst
    by_cases hnull : sv = Json.null
    · rw [if_pos hnull] at hst
      exact Option.noConfusion hst
    · rw [if_neg hnull] at hst
      have hb' := hb.symm
      rw [Bool.and_eq_true, Bool.and_eq_true, Bool.and_eq_true] at hb'
      obtain ⟨⟨⟨_, _⟩, hlo⟩, hhi⟩ := hb'
      simp only [checkStatusLow, if_neg hnull, hst] at hlo
      simp only [checkStatusHigh, if_neg hnull, hst] at hhi
      rcases hrange with hr1 | hr2
      · rw [Bool.not_eq_true', decide_eq_false_iff_not] at hlo
        exact hlo hr1
      · rw [Bool.not_eq_true', decide_eq_false_iff_not] at hhi
        exact hhi hr2
  · intro hup hmf r hr hst
    subst hup
    subst hmf
    obtain ⟨b, hkeep⟩ := filterGo_ok_processed h r hr
    obtain ⟨url, mv, sv, uOk, hu, hm, hs, hc, hb⟩ := keepsRecord_ok_elim hkeep
    simp only [coercedStatus, hs] at hst
    have huOk : uOk = true := by
      simp only [checkUrl] at hc
      exact (Except.ok.injEq _ _).mp hc.symm
    have hlow : checkStatusLow (some lo) sv = true := by
      simp only [checkStatusLow]
      by_cases hnull : sv = Json.null
      · rw [if_pos hnull]
      · rw [if_neg hnull] at hst ⊢
        rw [hst]
    have hhigh : checkStatusHigh (some hi) sv = true := by
      simp only [checkStatusHigh]
      by_cases hnull : sv = Json.null
      · rw [if_pos hnull]
      · rw [if_neg hnull] at hst ⊢
        rw [hst]
    have hbt : b = true := by
      rw [hb, huOk, hlow, hhigh]
      simp [checkMethod, upperMethodFilter]
    rw [hbt] at hkeep
    exact (filterGo_mem h r).mpr ⟨hr, hkeep⟩

theorem filter_status_range_witness :
    Json.obj (.cons "status" (.str "2_00") .nil) ∉
      ([Json.obj (.cons "status" (.str "abc") .nil)] : List Json)
    ∧ Json.obj (.cons "status" (.str "abc") .nil) ∈
      ([Json.obj (.cons "status" (.str "abc") .nil)] : List Json) :=
  ⟨(filter_status_range
      [Json.obj (.cons "response" (.obj (.cons "status" (.num 500) .nil)) .nil),
       Json.obj (.cons "status" (.str "2_00") .nil),
       Json.obj (.cons "status" (.str "abc") .nil)]
      [Json.obj (.cons "status" (.str "abc") .nil)]
      none none 300 400 (by rfl)).1
      (Json.obj (.cons "status" (.str "2_00") .nil))
      (by simp) 200 (by rfl) (by decide),
   (filter_status_range
      [Json.obj (.cons "response" (.obj (.cons "status" (.num 500) .nil)) .nil),
       Json.obj (.cons "status" (.str "2_00") .nil),
       Json.obj (.cons "status" (.str "abc") .nil)]
      [Json.obj (.cons "status" (.str "abc") .nil)]
      none none 300 400 (by rfl)).2 rfl rfl
      (Json.obj (.cons "status" (.str "abc") .nil)) (by simp) (by rfl)⟩

/-- A record carrying both a nested and a flat copy of a field: the outer
key maps to a sub-mapping holding the field, and the same field also exists
at top level. -/
def recNestedFlat (outer field : String) (nv fv : Json) : Json :=
  .obj (.cons outer (.obj (.cons field nv .nil)) (.cons field fv .nil))

/-- A record whose only status is `response.status = 0`, with no top-level
`status` field. -/
def recNestedStatusZero : Json :=
  .obj (.cons "response" (.obj (.cons "status" (.num 0) .nil)) .nil)

/-- A record whose only status is a top-level `status: 0` field. -/
def recFlatStatusZero : Json :=
  .obj (.cons "status" (.num 0) .nil)

/-- C10 counterexample: a record whose only status is the flat top-level
integer 0 does NOT resolve to an absent status — the `or` chain falls back
to the flat field and yields 0 — and the status filter does exclude it
(here with range 1..999). -/
theorem flat_zero_status_is_excluded :
    resolveStatusE recFlatStatusZero = .ok (.num 0)
    ∧ filter_network_requests [recFlatStatusZero] none none
        (some 1) (some 999) = .ok [] :=
  ⟨rfl, rfl⟩

/-- C10 (amended): the nested-then-flat resolution for url, method and
status prefers the nested value only when it is truthy, a falsy nested
value (0, empty string, null) falling back to the flat top-level field or
to absent; in particular a record whose only status is the integer 0 in the
nested `response` sub-mapping (no flat `status` field) resolves to no
status at all and is never excluded by the status filter, for any status
range — whereas a flat-only status 0 resolves to 0 and can be excluded. -/
theorem nested_then_flat_prefers_truthy :
    (∀ nv fv : Json, resolveUrlE (recNestedFlat "request" "url" nv fv)
      = .ok (pyOr (pyOr nv fv) (.str "")))
    ∧ (∀ nv fv : Json, resolveMethodE (recNestedFlat "request" "method" nv fv)
      = .ok (pyOr nv fv))
    ∧ (∀ nv fv : Json, resolveStatusE (recNestedFlat "response" "status" nv fv)
      = .ok (pyOr nv fv))
    ∧ resolveStatusE recNestedStatusZero = .ok .null
    ∧ (∀ (rs out : List Json) (smin smax : Option Int),
        filter_network_requests rs none none smin smax = .ok out →
        recNestedStatusZero ∈ rs → recNestedStatusZero ∈ out) := by
  refine ⟨fun nv fv => rfl, fun nv fv => rfl, fun nv fv => rfl, rfl, ?_⟩
  intro rs out smin smax h hin
  replace h : filterGo ⟨none, upperMethodFilter none, smin, smax⟩ rs = .ok out := h
  have hkeep : keepsRecord ⟨none, upperMethodFilter none, smin, smax⟩
      recNestedStatusZero = .ok true := by
    cases smin <;> cases smax <;> rfl
  exact (filterGo_mem h recNestedStatusZero).mpr ⟨hin, hkeep⟩

theorem nested_then_flat_prefers_truthy_witness :
    recNestedStatusZero ∈ [recNestedStatusZero] :=
  nested_then_flat_prefers_truthy.2.2.2.2 [recNestedStatusZero]
    [recNestedStatusZero] (some 200) (some 299) (by rfl)
    (List.mem_singleton.mpr rfl)

/-!
JSON serialization and parsing — the model of Python `json.dumps(x,
ensure_ascii=False)` and `json.loads` used by `serialize_to_jsonl` and
`extract_tool_result_json`.  The dumper uses the default separators
(", " and ": ") and escapes exactly what `json.dumps` escapes: quote,
backslash, and control characters (shortcuts for \n \t \r \b \f, `\u00xx`
for the rest).  The parser is a strict recursive-descent JSON reader
(fuelled for termination); model approximations: numbers are integers
(a fraction or exponent makes the parse fail), objects are association
lists (duplicate keys in a parsed text are kept in order rather than
last-wins), and `\uXXXX` escapes decode only to Unicode scalar values
(no surrogate pairs).  No claim exercises these corners.
-/

/-- Lower-case hexadecimal digit, as `json.dumps` prints in `\u00xx`. -/
def hexDigitChar (n : Nat) : Char :=
  if n < 10 then Char.ofNat (48 + n) else Char.ofNat (87 + n)

/-- Escaping of one character inside a JSON string, per `json.dumps` with
`ensure_ascii=False`. -/
def escapeJChar (c : Char) : List Char :=
  if c = '"' then ['\\', '"']
  else if c = '\\' then ['\\', '\\']
  else if c = '\n' then ['\\', 'n']
  else if c = '\t' then ['\\', 't']
  else if c = '\r' then ['\\', 'r']
  else if c = '\x08' then ['\\', 'b']
  else if c = '\x0c' then ['\\', 'f']
  else if c.toNat < 32 then
    ['\\', 'u', '0', '0', hexDigitChar (c.toNat / 16), hexDigitChar (c.toNat % 16)]
  else [c]

/-- A JSON string literal: quote, escaped body, quote. -/
def escapeJString (s : String) : List Char :=
  '"' :: (s.data.map escapeJChar).flatten ++ ['"']

mutual
/-- Model of `json.dumps(v, ensure_ascii=False)` with default separators. -/
def jdump : Json → List Char
  | .null => 'n' :: ['u', 'l', 'l']
  | .bool true => 't' :: ['r', 'u', 'e']
  | .bool false => 'f' :: ['a', 'l', 's', 'e']
  | .num n => intDump n
  | .str s => escapeJString s
  | .arr .nil => ['[', ']']
  | .arr (.cons v tl) => '[' :: (jdump v ++ jdumpTail tl ++ [']'])
  | .obj .nil => ['\x7b', '\x7d']
  | .obj (.cons k v tl) =>
    '\x7b' :: (escapeJString k ++ ':' :: ' ' :: jdump v ++ jdumpOTail tl ++ ['\x7d'])
def jdumpTail : JArr → List Char
  | .nil => []
  | .cons v tl => ',' :: ' ' :: (jdump v ++ jdumpTail tl)
def jdumpOTail : JObj → List Char
  | .nil => []
  | .cons k v tl =>
    ',' :: ' ' :: (escapeJString k ++ ':' :: ' ' :: jdump v ++ jdumpOTail tl)
end

/-- JSON whitespace. -/
def isJWs (c : Char) : Bool := c = ' ' || c = '\t' || c = '\n' || c = '\r'

/-- Skip leading JSON whitespace. -/
def skipWs (s : List Char) : List Char := s.dropWhile isJWs

/-- Numeric value of a hexadecimal digit, if any. -/
def hexVal (c : Char) : Option Nat :=
  if '0' ≤ c ∧ c ≤ '9' then some (c.toNat - 48)
  else if 'a' ≤ c ∧ c ≤ 'f' then some (c.toNat - 87)
  else if 'A' ≤ c ∧ c ≤ 'F' then some (c.toNat - 55)
  else none

/-- Decoding of a one-character JSON escape. -/
def decodeEsc (e : Char) : Option Char :=
  if e = '"' then some '"'
  else if e = '\\' then some '\\'
  else if e = '/' then some '/'
  else if e = 'b' then some '\x08'
  else if e = 'f' then some '\x0c'
  else if e = 'n' then some '\n'
  else if e = 'r' then some '\r'
  else if e = 't' then some '\t'
  else none

/-- Parse the body of a JSON string literal up to and excluding the closing
quote; returns the decoded characters and the remaining input.  Strict mode:
raw control characters are rejected, escapes are the JSON ones. -/
def parseStrBody : List Char → Option (List Char × List Char)
  | [] => none
  | c :: rest =>
    if c = '"' then some ([], rest)
    else if c = '\\' then
      match rest with
      | [] => none
      | e :: rest2 =>
        if e = 'u' then
          match rest2 with
          | h1 :: h2 :: h3 :: h4 :: rest3 =>
            (match hexVal h1, hexVal h2, hexVal h3, hexVal h4 with
             | some v1, some v2, some v3, some v4 =>
               let n := ((v1 * 16 + v2) * 16 + v3) * 16 + v4
               if _h : n.isValidChar then
                 (parseStrBody rest3).map (fun p => (Char.ofNat n :: p.1, p.2))
               else none
             | _, _, _, _ => none)
          | _ => none
        else
          match decodeEsc e with
          | some d => (parseStrBody rest2).map (fun p => (d :: p.1, p.2))
          | none => none
    else if c.toNat < 32 then none
    else (parseStrBody rest).map (fun p => (c :: p.1, p.2))

/-- Natural value of a digit run, most significant first. -/
def digitsToNat (cs : List Char) : Nat :=
  cs.foldl (fun a c => a * 10 + (c.toNat - 48)) 0

/-- Parse a JSON number token: optional minus, digits with no superfluous
leading zero; a following fraction or exponent makes the parse fail
(floats are outside the model). -/
def parseIntCore (t : List Char) : Option (Nat × List Char) :=
  let ds := t.takeWhile Char.isDigit
  let rest := t.dropWhile Char.isDigit
  if ds = [] then none
  else if 1 < ds.length ∧ ds.head? = some '0' then none
  else
    match rest with
    | c :: _ => if c = '.' ∨ c = 'e' ∨ c = 'E' then none else some (digitsToNat ds, rest)
    | [] => some (digitsToNat ds, rest)

/-- A signed JSON integer token. -/
def parseIntTok (s : List Char) : Option (Int × List Char) :=
  match s with
  | [] => none
  | c :: t =>
    if c = '-' then (parseIntCore t).map (fun p => (-(Int.ofNat p.1), p.2))
    else (parseIntCore (c :: t)).map (fun p => (Int.ofNat p.1, p.2))

mutual
/-- Fuelled recursive-descent parser for one JSON value; returns the value
and the unconsumed input. -/
def parseJValue : Nat → List Char → Option (Json × List Char)
  | 0, _ => none
  | Nat.succ f, s =>
    match skipWs s with
    | [] => none
    | c :: rest =>
      if c = 'n' then
        (if rest.take 3 = ['u', 'l', 'l'] then some (.null, rest.drop 3) else none)
      else if c = 't' then
        (if rest.take 3 = ['r', 'u', 'e'] then some (.bool true, rest.drop 3) else none)
      else if c = 'f' then
        (if rest.take 4 = ['a', 'l', 's', 'e'] then some (.bool false, rest.drop 4) else none)
      else if c = '"' then
        (parseStrBody rest).map (fun p => (.str ⟨p.1⟩, p.2))
      else if c = '[' then
        (match skipWs rest with
         | [] => none
         | c2 :: r2 =>
           if c2 = ']' then some (.arr .nil, r2)
           else (parseJElems f (c2 :: r2)).map (fun p => (.arr p.1, p.2)))
      else if c = '\x7b' then
        (match skipWs rest with
         | [] => none
         | c2 :: r2 =>
           if c2 = '\x7d' then some (.obj .nil, r2)
           else (parseJMembers f (c2 :: r2)).map (fun p => (.obj p.1, p.2)))
      else (parseIntTok (c :: rest)).map (fun p => (.num p.1, p.2))
termination_by structural fuel s => fuel
/-- Parse a non-empty comma-separated element sequence followed by `]`. -/
def parseJElems : Nat → List Char → Option (JArr × List Char)
  | 0, _ => none
  | Nat.succ f, s =>
    match parseJValue f s with
    | none => none
    | some (v, rest) =>
      match skipWs rest with
      | [] => none
      | c :: rest2 =>
        if c = ',' then
          (match parseJElems f rest2 with
           | none => none
           | some (tl, rest3) => some (.cons v tl, rest3))
        else if c = ']' then some (.cons v .nil, rest2)
        else none
termination_by structural fuel s => fuel
/-- Parse a non-empty `"key": value` sequence followed by the closing
brace. -/
def parseJMembers : Nat → List Char → Option (JObj × List Char)
  | 0, _ => none
  | Nat.succ f, s =>
    match skipWs s with
    | [] => none
    | c :: rest =>
      if c = '"' then
        (match parseStrBody rest with
         | none => none
         | some (kcs, rest1) =>
           match skipWs rest1 with
           | [] => none
           | c1 :: rest2 =>
             if c1 = ':' then
               (match parseJValue f rest2 with
                | none => none
                | some (v, rest3) =>
                  match skipWs rest3 with
                  | [] => none
                  | c2 :: rest4 =>
                    if c2 = ',' then
                      (match parseJMembers f rest4 with
                       | none => none
                       | some (tl, rest5) => some (.cons ⟨kcs⟩ v tl, rest5))
                    else if c2 = '\x7d' then some (.cons ⟨kcs⟩ v .nil, rest4)
                    else none)
             else none)
      else none
termination_by structural fuel s => fuel
end

/-- Model of `json.loads`: parse one value, demand only whitespace after. -/
def json_loads (cs : List Char) : Option Json :=
  match parseJValue (cs.length + 1) cs with
  | some (v, rest) => if skipWs rest = [] then some v else none
  | none => none

mutual
/-- Fuel bound for parsing a dumped value. -/
def jsize : Json → Nat
  | .null => 1
  | .bool _ => 1
  | .num _ => 1
  | .str _ => 1
  | .arr es => asize es + 1
  | .obj ms => osize ms + 1
def asize : JArr → Nat
  | .nil => 0
  | .cons v tl => jsize v + asize tl + 1
def osize : JObj → Nat
  | .nil => 0
  | .cons _ v tl => jsize v + osize tl + 1
end

theorem jsize_pos (v : Json) : 1 ≤ jsize v := by
  cases v <;> simp [jsize] <;> omega

theorem skipWs_cons (c : Char) (cs : List Char) :
    skipWs (c :: cs) = if isJWs c then skipWs cs else c :: cs := by
  simp only [skipWs, List.dropWhile]
  split <;> rename_i h <;> simp [h]

theorem skipWs_not_ws {c : Char} (h : isJWs c = false) (cs : List Char) :
    skipWs (c :: cs) = c :: cs := by
  rw [skipWs_cons, h]
  simp

/-- Characters a dumped value can start with never begin with whitespace,
a separator, or a closing bracket. -/
def goodHead (c : Char) : Bool :=
  !isJWs c && !(c = ']') && !(c = '\x7d') && !(c = ',')

theorem digit_goodHead {c : Char} (h : c.isDigit = true) : goodHead c = true := by
  have hv : 48 ≤ c.toNat ∧ c.toNat ≤ 57 := by
    simp only [Char.isDigit, decide_eq_true_eq, Bool.and_eq_true] at h
    exact ⟨h.1, h.2⟩
  have h1 : isJWs c = false := by
    simp only [isJWs, Bool.or_eq_false_iff, decide_eq_false_iff_not]
    refine ⟨⟨⟨?_, ?_⟩, ?_⟩, ?_⟩ <;> intro hc <;> subst hc <;> exact absurd hv (by decide)
  have h2 : c ≠ ']' := by intro hc; subst hc; exact absurd hv (by decide)
  have h3 : c ≠ '\x7d' := by intro hc; subst hc; exact absurd hv (by decide)
  have h4 : c ≠ ',' := by intro hc; subst hc; exact absurd hv (by decide)
  simp [goodHead, h1, h2, h3, h4]

theorem char_ofNat_toNat {n : Nat} (h : n.isValidChar) : (Char.ofNat n).toNat = n := by
  rw [Char.ofNat, dif_pos h]
  rfl

theorem char_isDigit_intro {c : Char} (h1 : 48 ≤ c.toNat) (h2 : c.toNat ≤ 57) :
    c.isDigit = true := by
  simp only [Char.isDigit, Bool.and_eq_true, decide_eq_true_eq]
  exact ⟨h1, h2⟩

theorem natDigitsAux_digits : ∀ (f n : Nat), n < f →
    (∀ c ∈ natDigitsAux f n, c.isDigit = true) ∧ natDigitsAux f n ≠ [] ∧
    digitsToNat (natDigitsAux f n) = n ∧
    (n ≠ 0 → ∀ d, (natDigitsAux f n).head? = some d → d ≠ '0') := by
  intro f
  induction f with
  | zero => intro n h; omega
  | succ f ih =>
    intro n h
    by_cases h10 : n < 10
    · rw [natDigitsAux, if_pos h10]
      have hvc : (48 + n).isValidChar := Or.inl (by omega)
      have hval : (Char.ofNat (48 + n)).toNat = 48 + n := char_ofNat_toNat hvc
      have hd : (Char.ofNat (48 + n)).isDigit = true :=
        char_isDigit_intro (by omega) (by omega)
      refine ⟨fun c hc => by simpa [List.mem_singleton.mp hc], by simp, ?_, ?_⟩
      · simp only [digitsToNat, List.foldl_cons, List.foldl_nil]
        omega
      · intro hn d hd0
        simp only [List.head?_cons, Option.some.injEq] at hd0
        subst hd0
        intro hc
        rw [hc] at hval
        have : ('0' : Char).toNat = 48 := rfl
        omega
    · rw [natDigitsAux, if_neg h10]
      obtain ⟨hall, hne, hval, hhead⟩ := ih (n / 10) (by omega)
      have hvc : (48 + n % 10).isValidChar := Or.inl (by omega)
      have hval2 : (Char.ofNat (48 + n % 10)).toNat = 48 + n % 10 := char_ofNat_toNat hvc
      have hlast : (Char.ofNat (48 + n % 10)).isDigit = true :=
        char_isDigit_intro (by omega) (by omega)
      refine ⟨?_, by simp [hne], ?_, ?_⟩
      · intro c hc
        rcases List.mem_append.mp hc with hc1 | hc2
        · exact hall c hc1
        · simpa [List.mem_singleton.mp hc2]
      · simp only [digitsToNat, List.foldl_append, List.foldl_cons, List.foldl_nil]
        rw [show (natDigitsAux f (n / 10)).foldl (fun a c => a * 10 + (c.toNat - 48)) 0
            = digitsToNat (natDigitsAux f (n / 10)) from rfl, hval]
        omega
      · intro _ d hd0
        cases hcs : natDigitsAux f (n / 10) with
        | nil => exact absurd hcs hne
        | cons x xs =>
          rw [hcs] at hd0
          simp only [List.cons_append, List.head?_cons, Option.some.injEq] at hd0
          exact hd0 ▸ hhead (by omega) x (by rw [hcs]; rfl)

theorem natDigits_spec (n : Nat) :
    (∀ c ∈ natDigits n, c.isDigit = true) ∧ natDigits n ≠ [] ∧
    digitsToNat (natDigits n) = n ∧
    (n ≠ 0 → ∀ d, (natDigits n).head? = some d → d ≠ '0') :=
  natDigitsAux_digits (n + 1) n (by omega)

/-- The inputs a dumped value may legitimately be followed by inside JSONL
or a composite value: end of input, or a separator / closing bracket. -/
def restSafe : List Char → Bool
  | [] => true
  | c :: _ => c = ',' || c = ']' || c = '\x7d'

theorem restSafe_head {c : Char} {cs : List Char} (h : restSafe (c :: cs) = true) :
    c = ',' ∨ c = ']' ∨ c = '\x7d' := by
  have h2 : (c = ',' ∨ c = ']') ∨ c = '\x7d' := by simpa [restSafe] using h
  tauto

theorem takeWhile_append_of {p : Char → Bool} {xs ys : List Char}
    (hxs : ∀ c ∈ xs, p c = true)
    (hys : ys = [] ∨ ∃ c cs, ys = c :: cs ∧ p c = false) :
    (xs ++ ys).takeWhile p = xs ∧ (xs ++ ys).dropWhile p = ys := by
  induction xs with
  | nil =>
    rcases hys with rfl | ⟨c, cs, rfl, hc⟩
    · simp
    · simp [List.takeWhile, List.dropWhile, hc]
  | cons x xs ih =>
    have hx := hxs x (List.mem_cons_self x xs)
    obtain ⟨h1, h2⟩ := ih (fun c hc => hxs c (List.mem_cons_of_mem x hc))
    simp [List.takeWhile, List.dropWhile, hx, h1, h2]

theorem parseIntCore_natDigits {k : Nat} {rest : List Char}
    (hrest : restSafe rest = true) :
    parseIntCore (natDigits k ++ rest) = some (k, rest) := by
  obtain ⟨hall, hne, hval, hhead⟩ := natDigits_spec k
  have hys : rest = [] ∨ ∃ c cs, rest = c :: cs ∧ c.isDigit = false := by
    cases rest with
    | nil => exact Or.inl rfl
    | cons c cs =>
      refine Or.inr ⟨c, cs, rfl, ?_⟩
      rcases restSafe_head hrest with rfl | rfl | rfl <;> rfl
  obtain ⟨htake, hdrop⟩ := takeWhile_append_of hall hys
  rw [parseIntCore]
  simp only [htake, hdrop]
  rw [if_neg hne]
  have hlz : ¬(1 < (natDigits k).length ∧ (natDigits k).head? = some '0') := by
    rintro ⟨hlen, hh⟩
    by_cases hk : k = 0
    · subst hk
      have : natDigits 0 = ['0'] := rfl
      rw [this] at hlen
      simp at hlen
    · exact hhead hk '0' hh rfl
  rw [if_neg hlz]
  cases rest with
  | nil =>
    show some (digitsToNat (natDigits k), ([] : List Char)) = some (k, [])
    rw [hval]
  | cons c cs =>
    have hc : ¬(c = '.' ∨ c = 'e' ∨ c = 'E') := by
      rcases restSafe_head hrest with rfl | rfl | rfl <;> simp
    show (if c = '.' ∨ c = 'e' ∨ c = 'E' then none
      else some (digitsToNat (natDigits k), c :: cs)) = some (k, c :: cs)
    rw [if_neg hc, hval]

theorem parseIntTok_intDump {n : Int} {rest : List Char}
    (hrest : restSafe rest = true) :
    parseIntTok (intDump n ++ rest) = some (n, rest) := by
  obtain ⟨hall, hne, _, _⟩ := natDigits_spec n.natAbs
  by_cases hneg : n < 0
  · rw [intDump, if_pos hneg]
    rw [List.cons_append, parseIntTok]
    rw [if_pos rfl]
    rw [parseIntCore_natDigits hrest]
    simp only [Option.map_some', Option.some.injEq, Prod.mk.injEq]
    refine ⟨?_, trivial⟩
    have hcast : (Int.ofNat n.natAbs) = (n.natAbs : Int) := rfl
    rw [hcast]
    omega
  · rw [intDump, if_neg hneg]
    cases hds : natDigits n.natAbs with
    | nil => exact absurd hds hne
    | cons d ds =>
      have hd : d.isDigit = true := hall d (by rw [hds]; exact List.mem_cons_self d ds)
      have hdm : ¬(d = '-') := by
        intro hc
        subst hc
        exact absurd hd (by decide)
      rw [List.cons_append, parseIntTok, if_neg hdm, ← List.cons_append, ← hds]
      rw [parseIntCore_natDigits hrest]
      simp only [Option.map_some', Option.some.injEq, Prod.mk.injEq]
      refine ⟨?_, trivial⟩
      have hcast : (Int.ofNat n.natAbs) = (n.natAbs : Int) := rfl
      rw [hcast]
      omega

theorem char_ofNat_toNat_self (c : Char) : Char.ofNat c.toNat = c := by
  have h : Nat.isValidChar c.toNat := c.valid
  rw [Char.ofNat, dif_pos h]
  apply Char.ext
  simp [Char.ofNatAux, UInt32.ofNat']
  apply UInt32.ext
  simp [UInt32.toNat]
  have he : c.toNat = c.val.toBitVec.toNat := rfl
  omega

theorem hexVal_hexDigitChar {d : Nat} (h : d < 16) :
    hexVal (hexDigitChar d) = some d := by
  interval_cases d <;> decide

theorem parseStrBody_esc_cons (c : Char) (T : List Char) :
    parseStrBody (escapeJChar c ++ T) =
      (parseStrBody T).map (fun p => (c :: p.1, p.2)) := by
  by_cases h1 : c = '"'
  · subst h1
    show parseStrBody ('\\' :: '"' :: T) = _
    rw [parseStrBody.eq_def]
    simp [decodeEsc]
  · by_cases h2 : c = '\\'
    · subst h2
      show parseStrBody ('\\' :: '\\' :: T) = _
      rw [parseStrBody.eq_def]
      simp [decodeEsc]
    · by_cases h3 : c = '\n'
      · subst h3
        show parseStrBody ('\\' :: 'n' :: T) = _
        rw [parseStrBody.eq_def]
        simp [decodeEsc]
      · by_cases h4 : c = '\t'
        · subst h4
          show parseStrBody ('\\' :: 't' :: T) = _
          rw [parseStrBody.eq_def]
          simp [decodeEsc]
        · by_cases h5 : c = '\r'
          · subst h5
            show parseStrBody ('\\' :: 'r' :: T) = _
            rw [parseStrBody.eq_def]
            simp [decodeEsc]
          · by_cases h6 : c = '\x08'
            · subst h6
              show parseStrBody ('\\' :: 'b' :: T) = _
              rw [parseStrBody.eq_def]
              simp [decodeEsc]
            · by_cases h7 : c = '\x0c'
              · subst h7
                show parseStrBody ('\\' :: 'f' :: T) = _
                rw [parseStrBody.eq_def]
                simp [decodeEsc]
              · by_cases h8 : c.toNat < 32
                · rw [escapeJChar, if_neg h1, if_neg h2, if_neg h3, if_neg h4,
                    if_neg h5, if_neg h6, if_neg h7, if_pos h8]
                  have hv3 := hexVal_hexDigitChar (d := c.toNat / 16) (by omega)
                  have hv4 := hexVal_hexDigitChar (d := c.toNat % 16) (by omega)
                  show (match hexVal '0', hexVal '0', hexVal (hexDigitChar (c.toNat / 16)),
                      hexVal (hexDigitChar (c.toNat % 16)) with
                    | some v1, some v2, some v3, some v4 =>
                      let n := ((v1 * 16 + v2) * 16 + v3) * 16 + v4
                      if _h : n.isValidChar then
                        (parseStrBody T).map (fun p => (Char.ofNat n :: p.1, p.2))
                      else none
                    | _, _, _, _ => none) = (parseStrBody T).map (fun p => (c :: p.1, p.2))
                  rw [hv3, hv4]
                  show (let n := ((0 * 16 + 0) * 16 + c.toNat / 16) * 16 + c.toNat % 16
                    if _h : n.isValidChar then
                      (parseStrBody T).map (fun p => (Char.ofNat n :: p.1, p.2))
                    else none) = (parseStrBody T).map (fun p => (c :: p.1, p.2))
                  have hn : ((0 * 16 + 0) * 16 + c.toNat / 16) * 16 + c.toNat % 16
                      = c.toNat := by omega
                  simp only [hn]
                  have hvalid : Nat.isValidChar c.toNat := c.valid
                  rw [dif_pos hvalid]
                  simp only [char_ofNat_toNat_self]
                · rw [escapeJChar, if_neg h1, if_neg h2, if_neg h3, if_neg h4,
                    if_neg h5, if_neg h6, if_neg h7, if_neg h8]
                  rw [List.singleton_append]
                  have h9 : ¬c.toNat < 32 := by omega
                  rw [parseStrBody.eq_def]
                  simp only [if_neg h1, if_neg h2, if_neg h9]

theorem parseStrBody_escape (cs : List Char) : ∀ rest : List Char,
    parseStrBody ((cs.map escapeJChar).flatten ++ '"' :: rest) = some (cs, rest) := by
  induction cs with
  | nil =>
    intro rest
    show parseStrBody ('"' :: rest) = some ([], rest)
    rw [parseStrBody.eq_def]
    simp
  | cons c cs ih =>
    intro rest
    simp only [List.map_cons, List.flatten_cons, List.append_assoc]
    rw [parseStrBody_esc_cons, ih]
    rfl

theorem digit_not_marker {c : Char} (h : c.isDigit = true) :
    c ≠ 'n' ∧ c ≠ 't' ∧ c ≠ 'f' ∧ c ≠ '"' ∧ c ≠ '[' ∧ c ≠ '\x7b' := by
  have hv : 48 ≤ c.toNat ∧ c.toNat ≤ 57 := by
    simp only [Char.isDigit, decide_eq_true_eq, Bool.and_eq_true] at h
    exact ⟨h.1, h.2⟩
  refine ⟨?_, ?_, ?_, ?_, ?_, ?_⟩ <;> intro hc <;> subst hc <;> exact absurd hv (by decide)

theorem intDump_head (n : Int) :
    ∃ d ds, intDump n = d :: ds ∧ (d.isDigit = true ∨ d = '-') := by
  obtain ⟨hall, hne, -, -⟩ := natDigits_spec n.natAbs
  rw [intDump]
  by_cases hneg : n < 0
  · rw [if_pos hneg]
    exact ⟨'-', natDigits n.natAbs, rfl, Or.inr rfl⟩
  · rw [if_neg hneg]
    cases hds : natDigits n.natAbs with
    | nil => exact absurd hds hne
    | cons d ds =>
      exact ⟨d, ds, rfl, Or.inl (hall d (by rw [hds]; exact List.mem_cons_self d ds))⟩

theorem jdump_head (v : Json) :
    ∃ c cs, jdump v = c :: cs ∧ goodHead c = true := by
  cases v with
  | null => exact ⟨'n', _, rfl, by decide⟩
  | bool b =>
    cases b with
    | false => exact ⟨'f', _, rfl, by decide⟩
    | true => exact ⟨'t', _, rfl, by decide⟩
  | num n =>
    obtain ⟨d, ds, hds, hd⟩ := intDump_head n
    refine ⟨d, ds, hds, ?_⟩
    rcases hd with hd | rfl
    · exact digit_goodHead hd
    · decide
  | str s => exact ⟨'"', _, rfl, by decide⟩
  | arr es =>
    cases es with
    | nil => exact ⟨'[', _, rfl, by decide⟩
    | cons v tl => exact ⟨'[', _, rfl, by decide⟩
  | obj ms =>
    cases ms with
    | nil => exact ⟨'\x7b', _, rfl, by decide⟩
    | cons k v tl => exact ⟨'\x7b', _, rfl, by decide⟩

theorem goodHead_not_ws {c : Char} (h : goodHead c = true) : isJWs c = false := by
  simp only [goodHead, Bool.and_eq_true, Bool.not_eq_true'] at h
  exact h.1.1.1

theorem goodHead_ne_rb {c : Char} (h : goodHead c = true) : c ≠ ']' := by
  simp only [goodHead, Bool.and_eq_true, Bool.not_eq_true', decide_eq_false_iff_not] at h
  exact h.1.1.2

theorem goodHead_ne_cb {c : Char} (h : goodHead c = true) : c ≠ '\x7d' := by
  simp only [goodHead, Bool.and_eq_true, Bool.not_eq_true', decide_eq_false_iff_not] at h
  exact h.1.2

theorem parseJValue_ws {c : Char} (h : isJWs c = true) (fuel : Nat) (s : List Char) :
    parseJValue fuel (c :: s) = parseJValue fuel s := by
  cases fuel with
  | zero => rfl
  | succ f =>
    have hsk : skipWs (c :: s) = skipWs s := by rw [skipWs_cons, if_pos h]
    rw [parseJValue.eq_2, parseJValue.eq_2, hsk]

theorem parseJElems_ws {c : Char} (h : isJWs c = true) (fuel : Nat) (s : List Char) :
    parseJElems fuel (c :: s) = parseJElems fuel s := by
  cases fuel with
  | zero => rfl
  | succ f =>
    rw [parseJElems.eq_2, parseJElems.eq_2, parseJValue_ws h]

theorem parseJMembers_ws {c : Char} (h : isJWs c = true) (fuel : Nat) (s : List Char) :
    parseJMembers fuel (c :: s) = parseJMembers fuel s := by
  cases fuel with
  | zero => rfl
  | succ f =>
    have hsk : skipWs (c :: s) = skipWs s := by rw [skipWs_cons, if_pos h]
    rw [parseJMembers.eq_2, parseJMembers.eq_2, hsk]

theorem restSafe_dumpTail (tl : JArr) (rest : List Char) :
    restSafe (jdumpTail tl ++ ']' :: rest) = true := by
  cases tl <;> rfl

theorem restSafe_dumpOTail (tl : JObj) (rest : List Char) :
    restSafe (jdumpOTail tl ++ '\x7d' :: rest) = true := by
  cases tl <;> rfl

theorem parse_roundtrip : ∀ fuel : Nat,
    (∀ (v : Json) (rest : List Char), jsize v ≤ fuel → restSafe rest = true →
      parseJValue fuel (jdump v ++ rest) = some (v, rest)) ∧
    (∀ (v : Json) (tl : JArr) (rest : List Char), asize (.cons v tl) ≤ fuel →
      restSafe rest = true →
      parseJElems fuel (jdump v ++ (jdumpTail tl ++ ']' :: rest)) = some (.cons v tl, rest)) ∧
    (∀ (k : String) (v : Json) (tl : JObj) (rest : List Char),
      osize (.cons k v tl) ≤ fuel → restSafe rest = true →
      parseJMembers fuel (escapeJString k ++ ':' :: ' ' ::
        (jdump v ++ (jdumpOTail tl ++ '\x7d' :: rest))) = some (.cons k v tl, rest)) := by
  intro fuel
  induction fuel with
  | zero =>
    refine ⟨fun v rest hsz _ => ?_, fun v tl rest hsz _ => ?_, fun k v tl rest hsz _ => ?_⟩
    · have := jsize_pos v
      omega
    · have h1 := jsize_pos v
      have h2 : asize (JArr.cons v tl) = jsize v + asize tl + 1 := rfl
      omega
    · have h1 := jsize_pos v
      have h2 : osize (JObj.cons k v tl) = jsize v + osize tl + 1 := rfl
      omega
  | succ f ih =>
    obtain ⟨ihv, ihe, ihm⟩ := ih
    refine ⟨?_, ?_, ?_⟩
    · intro v rest hsz hrest
      cases v with
      | null =>
        show parseJValue (Nat.succ f) ('n' :: 'u' :: 'l' :: 'l' :: rest) = some (.null, rest)
        rw [parseJValue.eq_2, skipWs_not_ws (by decide)]
        rfl
      | bool b =>
        cases b with
        | true =>
          show parseJValue (Nat.succ f) ('t' :: 'r' :: 'u' :: 'e' :: rest)
            = some (.bool true, rest)
          rw [parseJValue.eq_2, skipWs_not_ws (by decide)]
          rfl
        | false =>
          show parseJValue (Nat.succ f) ('f' :: 'a' :: 'l' :: 's' :: 'e' :: rest)
            = some (.bool false, rest)
          rw [parseJValue.eq_2, skipWs_not_ws (by decide)]
          rfl
      | num n =>
        obtain ⟨d, ds, hds, hd⟩ := intDump_head n
        have hgood : goodHead d = true := by
          rcases hd with hd | rfl
          · exact digit_goodHead hd
          · decide
        have hnm := fun (h : d.isDigit = true) => digit_not_marker h
        have hn1 : d ≠ 'n' := by rcases hd with hd | rfl
                                 exacts [(hnm hd).1, by decide]
        have hn2 : d ≠ 't' := by rcases hd with hd | rfl
                                 exacts [(hnm hd).2.1, by decide]
        have hn3 : d ≠ 'f' := by rcases hd with hd | rfl
                                 exacts [(hnm hd).2.2.1, by decide]
        have hn4 : d ≠ '"' := by rcases hd with hd | rfl
                                 exacts [(hnm hd).2.2.2.1, by decide]
        have hn5 : d ≠ '[' := by rcases hd with hd | rfl
                                 exacts [(hnm hd).2.2.2.2.1, by decide]
        have hn6 : d ≠ '\x7b' := by rcases hd with hd | rfl
                                    exacts [(hnm hd).2.2.2.2.2, by decide]
        show parseJValue (Nat.succ f) (intDump n ++ rest) = some (.num n, rest)
        rw [hds, List.cons_append, parseJValue.eq_2,
          skipWs_not_ws (goodHead_not_ws hgood)]
        simp only [if_neg hn1, if_neg hn2, if_neg hn3, if_neg hn4, if_neg hn5, if_neg hn6]
        rw [← List.cons_append, ← hds, parseIntTok_intDump hrest]
        rfl
      | str s0 =>
        show parseJValue (Nat.succ f) (escapeJString s0 ++ rest) = some (.str s0, rest)
        rw [show escapeJString s0 ++ rest
            = '"' :: ((s0.data.map escapeJChar).flatten ++ '"' :: rest) by
          simp [escapeJString]]
        rw [parseJValue.eq_2, skipWs_not_ws (by decide)]
        show (parseStrBody ((s0.data.map escapeJChar).flatten ++ '"' :: rest)).map
          (fun p => (Json.str ⟨p.1⟩, p.2)) = some (.str s0, rest)
        rw [parseStrBody_escape]
        rfl
      | arr es =>
        cases es with
        | nil =>
          show parseJValue (Nat.succ f) ('[' :: ']' :: rest) = some (.arr .nil, rest)
          rw [parseJValue.eq_2, skipWs_not_ws (by decide)]
          rfl
        | cons v tl =>
          obtain ⟨c2, cs2, hhd, hgood⟩ := jdump_head v
          have hsz' : asize (JArr.cons v tl) ≤ f := by
            simp only [jsize] at hsz
            omega
          show parseJValue (Nat.succ f)
            (('[' :: (jdump v ++ jdumpTail tl ++ [']'])) ++ rest)
            = some (.arr (.cons v tl), rest)
          rw [show ('[' :: (jdump v ++ jdumpTail tl ++ [']'])) ++ rest
              = '[' :: (jdump v ++ (jdumpTail tl ++ ']' :: rest)) by simp]
          rw [parseJValue.eq_2, skipWs_not_ws (by decide)]
          show (match skipWs (jdump v ++ (jdumpTail tl ++ ']' :: rest)) with
            | [] => none
            | c2 :: r2 =>
              if c2 = ']' then some (Json.arr JArr.nil, r2)
              else (parseJElems f (c2 :: r2)).map (fun p => (Json.arr p.1, p.2)))
            = some (.arr (.cons v tl), rest)
          rw [hhd, List.cons_append, skipWs_not_ws (goodHead_not_ws hgood)]
          simp only [if_neg (goodHead_ne_rb hgood)]
          rw [← List.cons_append, ← hhd, ihe v tl rest hsz' hrest]
          rfl
      | obj ms =>
        cases ms with
        | nil =>
          show parseJValue (Nat.succ f) ('\x7b' :: '\x7d' :: rest) = some (.obj .nil, rest)
          rw [parseJValue.eq_2, skipWs_not_ws (by decide)]
          rfl
        | cons k v tl =>
          have hsz' : osize (JObj.cons k v tl) ≤ f := by
            simp only [jsize] at hsz
            omega
          show parseJValue (Nat.succ f)
            (('\x7b' :: (escapeJString k ++ ':' :: ' ' :: jdump v ++ jdumpOTail tl ++ ['\x7d'])) ++ rest)
            = some (.obj (.cons k v tl), rest)
          rw [show ('\x7b' :: (escapeJString k ++ ':' :: ' ' :: jdump v ++ jdumpOTail tl ++ ['\x7d'])) ++ rest
              = '\x7b' :: (escapeJString k ++ ':' :: ' ' ::
                (jdump v ++ (jdumpOTail tl ++ '\x7d' :: rest))) by simp]
          rw [parseJValue.eq_2, skipWs_not_ws (by decide)]
          show (match skipWs (escapeJString k ++ ':' :: ' ' ::
              (jdump v ++ (jdumpOTail tl ++ '\x7d' :: rest))) with
            | [] => none
            | c2 :: r2 =>
              if c2 = '\x7d' then some (Json.obj JObj.nil, r2)
              else (parseJMembers f (c2 :: r2)).map (fun p => (Json.obj p.1, p.2)))
            = some (.obj (.cons k v tl), rest)
          rw [show escapeJString k ++ ':' :: ' ' ::
              (jdump v ++ (jdumpOTail tl ++ '\x7d' :: rest))
              = '"' :: ((k.data.map escapeJChar).flatten ++ '"' ::
                (':' :: ' ' :: (jdump v ++ (jdumpOTail tl ++ '\x7d' :: rest)))) by
            simp [escapeJString]]
          rw [skipWs_not_ws (by decide)]
          simp only [if_neg (by decide : ¬('"' : Char) = '\x7d')]
          rw [show ('"' : Char) :: ((k.data.map escapeJChar).flatten ++ '"' ::
              (':' :: ' ' :: (jdump v ++ (jdumpOTail tl ++ '\x7d' :: rest))))
              = escapeJString k ++ ':' :: ' ' ::
                (jdump v ++ (jdumpOTail tl ++ '\x7d' :: rest)) by
            simp [escapeJString]]
          rw [ihm k v tl rest hsz' hrest]
          rfl
    · intro v tl rest hsz hrest
      have hjv : jsize v ≤ f := by
        have h2 : asize (JArr.cons v tl) = jsize v + asize tl + 1 := rfl
        omega
      rw [parseJElems.eq_2, ihv v (jdumpTail tl ++ ']' :: rest) hjv (restSafe_dumpTail tl rest)]
      cases tl with
      | nil =>
        show (match skipWs (']' :: rest) with
          | [] => none
          | c :: rest2 =>
            if c = ',' then
              (match parseJElems f rest2 with
               | none => none
               | some (tl, rest3) => some (JArr.cons v tl, rest3))
            else if c = ']' then some (JArr.cons v JArr.nil, rest2)
            else none) = some (JArr.cons v JArr.nil, rest)
        rw [skipWs_not_ws (by decide)]
        rfl
      | cons v2 tw =>
        have hsz2 : asize (JArr.cons v2 tw) ≤ f := by
          have h2 : asize (JArr.cons v (JArr.cons v2 tw))
              = jsize v + asize (JArr.cons v2 tw) + 1 := rfl
          have := jsize_pos v
          omega
        rw [show jdumpTail (JArr.cons v2 tw) ++ ']' :: rest
            = ',' :: ' ' :: (jdump v2 ++ (jdumpTail tw ++ ']' :: rest)) by
          simp [jdumpTail]]
        show (match skipWs (',' :: ' ' :: (jdump v2 ++ (jdumpTail tw ++ ']' :: rest))) with
          | [] => none
          | c :: rest2 =>
            if c = ',' then
              (match parseJElems f rest2 with
               | none => none
               | some (tl, rest3) => some (JArr.cons v tl, rest3))
            else if c = ']' then some (JArr.cons v JArr.nil, rest2)
            else none) = some (JArr.cons v (JArr.cons v2 tw), rest)
        rw [skipWs_not_ws (by decide)]
        show (if (',' : Char) = ',' then
            (match parseJElems f (' ' :: (jdump v2 ++ (jdumpTail tw ++ ']' :: rest))) with
             | none => none
             | some (tl, rest3) => some (JArr.cons v tl, rest3))
          else if (',' : Char) = ']' then
            some (JArr.cons v JArr.nil, ' ' :: (jdump v2 ++ (jdumpTail tw ++ ']' :: rest)))
          else none) = some (JArr.cons v (JArr.cons v2 tw), rest)
        rw [if_pos rfl, parseJElems_ws (by decide), ihe v2 tw rest hsz2 hrest]
    · intro k v tl rest hsz hrest
      have hjv : jsize v ≤ f := by
        have h2 : osize (JObj.cons k v tl) = jsize v + osize tl + 1 := rfl
        omega
      rw [parseJMembers.eq_2]
      rw [show escapeJString k ++ ':' :: ' ' :: (jdump v ++ (jdumpOTail tl ++ '\x7d' :: rest))
          = '"' :: ((k.data.map escapeJChar).flatten ++ '"' ::
            (':' :: ' ' :: (jdump v ++ (jdumpOTail tl ++ '\x7d' :: rest)))) by
        simp [escapeJString]]
      rw [skipWs_not_ws (by decide)]
      show (match parseStrBody ((k.data.map escapeJChar).flatten ++ '"' ::
          (':' :: ' ' :: (jdump v ++ (jdumpOTail tl ++ '\x7d' :: rest)))) with
        | none => none
        | some (kcs, rest1) =>
          match skipWs rest1 with
          | [] => none
          | c1 :: rest2 =>
            if c1 = ':' then
              (match parseJValue f rest2 with
               | none => none
               | some (v, rest3) =>
                 match skipWs rest3 with
                 | [] => none
                 | c2 :: rest4 =>
                   if c2 = ',' then
                     (match parseJMembers f rest4 with
                      | none => none
                      | some (tl, rest5) => some (JObj.cons ⟨kcs⟩ v tl, rest5))
                   else if c2 = '\x7d' then some (JObj.cons ⟨kcs⟩ v .nil, rest4)
                   else none)
            else none) = some (JObj.cons k v tl, rest)
      rw [parseStrBody_escape]
      show (match skipWs (':' :: ' ' :: (jdump v ++ (jdumpOTail tl ++ '\x7d' :: rest))) with
        | [] => none
        | c1 :: rest2 =>
          if c1 = ':' then
            (match parseJValue f rest2 with
             | none => none
             | some (v, rest3) =>
               match skipWs rest3 with
               | [] => none
               | c2 :: rest4 =>
                 if c2 = ',' then
                   (match parseJMembers f rest4 with
                    | none => none
                    | some (tl, rest5) => some (JObj.cons ⟨k.data⟩ v tl, rest5))
                 else if c2 = '\x7d' then some (JObj.cons ⟨k.data⟩ v .nil, rest4)
                 else none)
          else none) = some (JObj.cons k v tl, rest)
      rw [skipWs_not_ws (by decide)]
      show (if (':' : Char) = ':' then
          (match parseJValue f (' ' :: (jdump v ++ (jdumpOTail tl ++ '\x7d' :: rest))) with
           | none => none
           | some (w, rest3) =>
             match skipWs rest3 with
             | [] => none
             | c2 :: rest4 =>
               if c2 = ',' then
                 (match parseJMembers f rest4 with
                  | none => none
                  | some (tl2, rest5) => some (JObj.cons ⟨k.data⟩ w tl2, rest5))
               else if c2 = '\x7d' then some (JObj.cons ⟨k.data⟩ w .nil, rest4)
               else none)
        else none) = some (JObj.cons k v tl, rest)
      rw [if_pos rfl]
      rw [parseJValue_ws (by decide), ihv v (jdumpOTail tl ++ '\x7d' :: rest) hjv
        (restSafe_dumpOTail tl rest)]
      cases tl with
      | nil =>
        show (match skipWs ('\x7d' :: rest) with
          | [] => none
          | c2 :: rest4 =>
            if c2 = ',' then
              (match parseJMembers f rest4 with
               | none => none
               | some (tl, rest5) => some (JObj.cons ⟨k.data⟩ v tl, rest5))
            else if c2 = '\x7d' then some (JObj.cons ⟨k.data⟩ v .nil, rest4)
            else none) = some (JObj.cons k v JObj.nil, rest)
        rw [skipWs_not_ws (by decide)]
        rfl
      | cons k2 v2 tw =>
        have hsz2 : osize (JObj.cons k2 v2 tw) ≤ f := by
          have h2 : osize (JObj.cons k (Json.obj .nil) (JObj.cons k2 v2 tw))
              = jsize (Json.obj .nil) + osize (JObj.cons k2 v2 tw) + 1 := rfl
          have h3 : osize (JObj.cons k v (JObj.cons k2 v2 tw))
              = jsize v + osize (JObj.cons k2 v2 tw) + 1 := rfl
          have := jsize_pos v
          omega
        rw [show jdumpOTail (JObj.cons k2 v2 tw) ++ '\x7d' :: rest
            = ',' :: ' ' :: (escapeJString k2 ++ ':' :: ' ' ::
              (jdump v2 ++ (jdumpOTail tw ++ '\x7d' :: rest))) by
          simp [jdumpOTail]]
        show (match skipWs (',' :: ' ' :: (escapeJString k2 ++ ':' :: ' ' ::
            (jdump v2 ++ (jdumpOTail tw ++ '\x7d' :: rest)))) with
          | [] => none
          | c2 :: rest4 =>
            if c2 = ',' then
              (match parseJMembers f rest4 with
               | none => none
               | some (tl2, rest5) => some (JObj.cons ⟨k.data⟩ v tl2, rest5))
            else if c2 = '\x7d' then some (JObj.cons ⟨k.data⟩ v .nil, rest4)
            else none) = some (JObj.cons k v (JObj.cons k2 v2 tw), rest)
        rw [skipWs_not_ws (by decide)]
        show (if (',' : Char) = ',' then
            (match parseJMembers f (' ' :: (escapeJString k2 ++ ':' :: ' ' ::
                (jdump v2 ++ (jdumpOTail tw ++ '\x7d' :: rest)))) with
             | none => none
             | some (tl, rest5) => some (JObj.cons ⟨k.data⟩ v tl, rest5))
          else if (',' : Char) = '\x7d' then
            some (JObj.cons ⟨k.data⟩ v .nil, ' ' :: (escapeJString k2 ++ ':' :: ' ' ::
              (jdump v2 ++ (jdumpOTail tw ++ '\x7d' :: rest))))
          else none) = some (JObj.cons k v (JObj.cons k2 v2 tw), rest)
        rw [if_pos rfl, parseJMembers_ws (by decide), ihm k2 v2 tw rest hsz2 hrest]

mutual
theorem jsize_le_len : ∀ v : Json, jsize v ≤ (jdump v).length + 1
  | .null => by simp [jsize, jdump]
  | .bool b => by cases b <;> simp [jsize, jdump]
  | .num n => by simp [jsize]
  | .str s => by simp [jsize]
  | .arr .nil => by simp [jsize, asize, jdump]
  | .arr (.cons v tl) => by
    have h1 := jsize_le_len v
    have h2 := asize_le_len tl
    have h3 : jsize (Json.arr (JArr.cons v tl)) = jsize v + asize tl + 2 := rfl
    have h4 : (jdump (Json.arr (JArr.cons v tl))).length
        = (jdump v).length + (jdumpTail tl).length + 2 := by
      simp [jdump, List.length_append]
      omega
    omega
  | .obj .nil => by simp [jsize, osize, jdump]
  | .obj (.cons k v tl) => by
    have h1 := jsize_le_len v
    have h2 := osize_le_len tl
    have h3 : jsize (Json.obj (JObj.cons k v tl)) = jsize v + osize tl + 2 := rfl
    have h4 : (jdump (Json.obj (JObj.cons k v tl))).length
        = (escapeJString k).length + (jdump v).length + (jdumpOTail tl).length + 4 := by
      simp [jdump, List.length_append]
      omega
    omega
theorem asize_le_len : ∀ tl : JArr, asize tl ≤ (jdumpTail tl).length
  | .nil => by simp [asize, jdumpTail]
  | .cons v tl => by
    have h1 := jsize_le_len v
    have h2 := asize_le_len tl
    have h3 : asize (JArr.cons v tl) = jsize v + asize tl + 1 := rfl
    have h4 : (jdumpTail (JArr.cons v tl)).length
        = (jdump v).length + (jdumpTail tl).length + 2 := by
      simp [jdumpTail, List.length_append]
    omega
theorem osize_le_len : ∀ tl : JObj, osize tl ≤ (jdumpOTail tl).length
  | .nil => by simp [osize, jdumpOTail]
  | .cons k v tl => by
    have h1 := jsize_le_len v
    have h2 := osize_le_len tl
    have h3 : osize (JObj.cons k v tl) = jsize v + osize tl + 1 := rfl
    have h4 : (jdumpOTail (JObj.cons k v tl)).length
        = (escapeJString k).length + (jdump v).length + (jdumpOTail tl).length + 4 := by
      simp [jdumpOTail, List.length_append]
      omega
    omega
end

/-- The dump of any value parses back to exactly that value: the model-level
inverse law behind the JSONL round trip. -/
theorem json_loads_jdump (v : Json) : json_loads (jdump v) = some v := by
  have h := (parse_roundtrip ((jdump v).length + 1)).1 v []
    (by have := jsize_le_len v; omega) (by rfl)
  rw [List.append_nil] at h
  rw [json_loads, h]
  rfl

theorem hexDigitChar_ne_nl {d : Nat} (h : d < 16) : hexDigitChar d ≠ '\n' := by
  interval_cases d <;> decide

theorem escapeJChar_no_nl (c : Char) : '\n' ∉ escapeJChar c := by
  rw [escapeJChar]
  split_ifs with h1 h2 h3 h4 h5 h6 h7 h8
  · decide
  · decide
  · decide
  · decide
  · decide
  · decide
  · decide
  · intro hmem
    have hh1 := hexDigitChar_ne_nl (d := c.toNat / 16) (by omega)
    have hh2 := hexDigitChar_ne_nl (d := c.toNat % 16) (by omega)
    simp only [List.mem_cons, List.not_mem_nil, or_false] at hmem
    rcases hmem with h | h | h | h | h | h
    · exact absurd h (by decide)
    · exact absurd h (by decide)
    · exact absurd h (by decide)
    · exact absurd h (by decide)
    · exact hh1 h.symm
    · exact hh2 h.symm
  · intro hmem
    rw [List.mem_singleton] at hmem
    subst hmem
    exact h8 (by decide)

theorem escapeJString_no_nl (s : String) : '\n' ∉ escapeJString s := by
  intro hmem
  rw [escapeJString] at hmem
  rcases List.mem_cons.mp hmem with h | h
  · exact absurd h (by decide)
  · rcases List.mem_append.mp h with h | h
    · obtain ⟨l, hl, hcl⟩ := List.mem_flatten.mp h
      obtain ⟨c, _, rfl⟩ := List.mem_map.mp hl
      exact escapeJChar_no_nl c hcl
    · rw [List.mem_singleton] at h
      exact absurd h (by decide)

theorem natDigits_no_nl (k : Nat) : '\n' ∉ natDigits k := by
  intro hmem
  obtain ⟨hall, -, -, -⟩ := natDigits_spec k
  have := hall _ hmem
  exact absurd this (by decide)

theorem intDump_no_nl (n : Int) : '\n' ∉ intDump n := by
  intro hmem
  rw [intDump] at hmem
  by_cases hneg : n < 0
  · rw [if_pos hneg] at hmem
    rcases List.mem_cons.mp hmem with h | h
    · exact absurd h (by decide)
    · exact natDigits_no_nl _ h
  · rw [if_neg hneg] at hmem
    exact natDigits_no_nl _ hmem

mutual
theorem jdump_no_nl : ∀ v : Json, '\n' ∉ jdump v
  | .null => by decide
  | .bool b => by cases b <;> decide
  | .num n => intDump_no_nl n
  | .str s => escapeJString_no_nl s
  | .arr .nil => by decide
  | .arr (.cons v tl) => by
    intro hmem
    simp [jdump, List.mem_cons, List.mem_append, List.mem_singleton,
      jdump_no_nl v, jdumpTail_no_nl tl] at hmem
  | .obj .nil => by decide
  | .obj (.cons k v tl) => by
    intro hmem
    simp [jdump, List.mem_cons, List.mem_append, List.mem_singleton,
      escapeJString_no_nl k, jdump_no_nl v, jdumpOTail_no_nl tl] at hmem
theorem jdumpTail_no_nl : ∀ tl : JArr, '\n' ∉ jdumpTail tl
  | .nil => by decide
  | .cons v tl => by
    intro hmem
    simp [jdumpTail, List.mem_cons, List.mem_append,
      jdump_no_nl v, jdumpTail_no_nl tl] at hmem
theorem jdumpOTail_no_nl : ∀ tl : JObj, '\n' ∉ jdumpOTail tl
  | .nil => by decide
  | .cons k v tl => by
    intro hmem
    simp [jdumpOTail, List.mem_cons, List.mem_append,
      escapeJString_no_nl k, jdump_no_nl v, jdumpOTail_no_nl tl] at hmem
end

/-- Split a character stream on newline characters (the line structure a
reader of the JSONL artifact sees; trailing segment included, so a final
newline yields a final empty segment). -/
def splitNl : List Char → List (List Char)
  | [] => [[]]
  | c :: cs =>
    if c = '\n' then [] :: splitNl cs
    else
      match splitNl cs with
      | l :: ls => (c :: l) :: ls
      | [] => [[c]]

theorem splitNl_ne_nil (cs : List Char) : splitNl cs ≠ [] := by
  cases cs with
  | nil => simp [splitNl]
  | cons c cs =>
    rw [splitNl]
    split_ifs
    · simp
    · cases splitNl cs <;> simp

theorem splitNl_append_line {xs : List Char} (ys : List Char) (h : '\n' ∉ xs) :
    splitNl (xs ++ '\n' :: ys) = xs :: splitNl ys := by
  induction xs with
  | nil => simp [splitNl]
  | cons x xs ih =>
    have hx : x ≠ '\n' := fun hc => h (hc ▸ List.mem_cons_self x xs)
    have h' : '\n' ∉ xs := fun hc => h (List.mem_cons_of_mem x hc)
    rw [List.cons_append, splitNl, if_neg hx, ih h']

/-- Model of `serialize_to_jsonl` (capture_network.py lines 122-131):
`None` → empty text; a dict → its compact dump plus a newline; a list →
one dumped element plus newline per element; any other value → the dump of
the one-field wrapper object plus a newline. -/
def jsonlLines : JArr → List Char
  | .nil => []
  | .cons v tl => jdump v ++ '\n' :: jsonlLines tl

def serialize_to_jsonl : Json → List Char
  | .null => []
  | .obj ms => jdump (.obj ms) ++ ['\n']
  | .arr es => jsonlLines es
  | other => jdump (.obj (.cons "value" other .nil)) ++ ['\n']

theorem splitNl_jsonlLines : ∀ es : JArr,
    splitNl (jsonlLines es) = es.toList.map jdump ++ [[]]
  | .nil => rfl
  | .cons v tl => by
    rw [jsonlLines, splitNl_append_line _ (jdump_no_nl v), splitNl_jsonlLines tl]
    rfl

/-- C7: serializing a list of records to JSONL yields one compact JSON
object per line with a single final newline and no further separator
(splitting on newlines gives exactly the dumped records followed by the
empty trailing segment), and parsing each line recovers exactly the
original records in order. -/
theorem serialize_jsonl_roundtrip (records : List Json) :
    splitNl (serialize_to_jsonl (Json.arr (JArr.ofList records)))
      = records.map jdump ++ [[]]
    ∧ (records.map jdump).map json_loads = records.map some := by
  constructor
  · show splitNl (jsonlLines (JArr.ofList records)) = _
    rw [splitNl_jsonlLines, JArr.toList_ofList]
  · induction records with
    | nil => rfl
    | cons r rs ih => simp [json_loads_jdump r, ih]

/-!
Result Normalizer (`extract_tool_result_json`, capture_network.py lines
85-119).  A tool result carries an optional list of content entries; the
source's attribute-or-mapping duck typing is modelled by treating an entry
as an embedded value whose fields are read when it is a mapping and absent
otherwise (`getattr(e, k, None)` and `dict.get(k)` coincide under this
model; an entry that is neither has no `type` and is skipped).
-/

structure CallToolResult where
  content : Option (List Json)

/-- Field access on a content entry (`None` when absent or the entry is not
a mapping). -/
def entryGetRaw (e : Json) (k : String) : Json :=
  match e with
  | .obj ms => (ms.lookup k).getD .null
  | _ => .null

/-- The entry's `type` tag. -/
def entryType (e : Json) : Json := entryGetRaw e "type"

/-- The embedded value of a `json`-tagged entry (`entry.get("json")`). -/
def entryJsonField (e : Json) : Json := entryGetRaw e "json"

/-- The text payload of a `text`-tagged entry, with the source's `or ""`
falsy fallback. -/
def entryTextField (e : Json) : Json := pyOr (entryGetRaw e "text") (.str "")

/-- The scan over content entries: first `json` or `text` tagged entry
wins; `json.loads` failure (or a non-string payload, whose `json.loads`
raises `TypeError`, also caught) degrades to the one-field text wrapper. -/
def scanEntries : List Json → Json
  | [] => .null
  | e :: rest =>
    if entryType e = .str "json" then entryJsonField e
    else if entryType e = .str "text" then
      (match entryTextField e with
       | .str t =>
         (match json_loads t.data with
          | some v => v
          | none => .obj (.cons "text" (.str t) .nil))
       | other => .obj (.cons "text" other .nil))
    else scanEntries rest

/-- `extract_tool_result_json`: a falsy result or absent content yields
`None`; otherwise the entries are scanned in order. -/
def extract_tool_result_json : Option CallToolResult → Json
  | none => .null
  | some r =>
    match r.content with
    | none => .null
    | some entries => scanEntries entries

/-- C4: the normalizer returns null for a falsy result, absent content, no
entries, or no recognizably-tagged entry (skipping unknown entries in
order); the first entry tagged `json` returns its embedded value; the first
entry tagged `text` returns its text parsed as JSON or, when parsing fails,
the one-field mapping from `text` to the raw string. -/
theorem extract_first_usable :
    extract_tool_result_json none = .null
    ∧ extract_tool_result_json (some ⟨none⟩) = .null
    ∧ extract_tool_result_json (some ⟨some []⟩) = .null
    ∧ (∀ (e : Json) (rest : List Json), entryType e = .str "json" →
        extract_tool_result_json (some ⟨some (e :: rest)⟩) = entryJsonField e)
    ∧ (∀ (e : Json) (rest : List Json) (t : String), entryType e = .str "text" →
        entryTextField e = .str t →
        extract_tool_result_json (some ⟨some (e :: rest)⟩)
          = (json_loads t.data).getD (.obj (.cons "text" (.str t) .nil)))
    ∧ (∀ (e : Json) (rest : List Json), entryType e ≠ .str "json" →
        entryType e ≠ .str "text" →
        extract_tool_result_json (some ⟨some (e :: rest)⟩)
          = extract_tool_result_json (some ⟨some rest⟩)) := by
  refine ⟨rfl, rfl, rfl, ?_, ?_, ?_⟩
  · intro e rest hty
    show scanEntries (e :: rest) = entryJsonField e
    rw [scanEntries, hty]
    rw [if_pos rfl]
  · intro e rest t hty htx
    show scanEntries (e :: rest)
      = (json_loads t.data).getD (.obj (.cons "text" (.str t) .nil))
    rw [scanEntries, hty]
    rw [if_neg (by decide), if_pos rfl, htx]
    show (match json_loads t.data with
      | some v => v
      | none => Json.obj (.cons "text" (.str t) .nil))
      = (json_loads t.data).getD (.obj (.cons "text" (.str t) .nil))
    cases json_loads t.data <;> rfl
  · intro e rest h1 h2
    show scanEntries (e :: rest) = scanEntries rest
    rw [scanEntries, if_neg h1, if_neg h2]

theorem extract_first_usable_witness :
    extract_tool_result_json (some ⟨some
      [Json.obj (.cons "type" (.str "text")
        (.cons "text" (.str "[42]") .nil))]⟩)
      = (json_loads ['[', '4', '2', ']']).getD
          (.obj (.cons "text" (.str "[42]") .nil)) :=
  extract_first_usable.2.2.2.2.1
    (Json.obj (.cons "type" (.str "text") (.cons "text" (.str "[42]") .nil)))
    [] "[42]" (by rfl) (by rfl)

/-- List coercion applied by `capture_network_requests` after normalization
(capture_network.py lines 336-347). -/
def coerce_network_payload : Json → List Json
  | .null => []
  | .arr es => es.toList
  | .obj ms =>
    (match ms.lookup "requests" with
     | some (.arr rs) => rs.toList
     | _ => [.obj ms])
  | other => [.obj (.cons "value" other .nil)]

/-- C5: the post-normalization list coercion: null becomes the empty list;
a list is used as-is; a mapping with a list-valued `requests` field yields
that inner list (not a wrapper); any other mapping is wrapped as a
one-element list; any other scalar is wrapped as `[ {value: scalar} ]`. -/
theorem capture_list_coercion :
    coerce_network_payload .null = []
    ∧ (∀ es : JArr, coerce_network_payload (.arr es) = es.toList)
    ∧ (∀ (ms : JObj) (rs : JArr), ms.lookup "requests" = some (.arr rs) →
        coerce_network_payload (.obj ms) = rs.toList)
    ∧ (∀ ms : JObj, (∀ rs : JArr, ms.lookup "requests" ≠ some (.arr rs)) →
        coerce_network_payload (.obj ms) = [.obj ms])
    ∧ (∀ b, coerce_network_payload (.bool b) = [.obj (.cons "value" (.bool b) .nil)])
    ∧ (∀ n, coerce_network_payload (.num n) = [.obj (.cons "value" (.num n) .nil)])
    ∧ (∀ s, coerce_network_payload (.str s) = [.obj (.cons "value" (.str s) .nil)]) := by
  refine ⟨rfl, fun es => rfl, ?_, ?_, fun b => rfl, fun n => rfl, fun s => rfl⟩
  · intro ms rs h
    rw [coerce_network_payload, h]
  · intro ms h
    rw [coerce_network_payload]
    cases hlk : ms.lookup "requests" with
    | none => rfl
    | some v =>
      cases v with
      | arr rs => exact absurd hlk (h rs)
      | null => rfl
      | bool b => rfl
      | num n => rfl
      | str s => rfl
      | obj ms2 => rfl

theorem capture_list_coercion_witness :
    coerce_network_payload (Json.obj (.cons "requests"
      (Json.arr (.cons (Json.obj .nil) .nil)) .nil))
      = [Json.obj .nil] :=
  capture_list_coercion.2.2.1
    (.cons "requests" (Json.arr (.cons (Json.obj .nil) .nil)) .nil)
    (.cons (Json.obj .nil) .nil) (by rfl)

/-!
Retry Wrapper (`call_tool_with_retry`, capture_network.py lines 186-220).

The remote call is determinized as a function from the attempt index to its
outcome (success value or raised exception).  Backoff delays are modelled
as exact rationals: the source computes `backoff_seconds * (2 ** k)` in
floating point, and multiplication of a float by a power of two is exact,
so the rational model coincides with the float values (absent overflow).
The terminal `RuntimeError ... from last_exception` is modelled as the
`.error` outcome carrying the last underlying failure.
-/

structure RetryResult (A E : Type) where
  outcome : Except (Option E) A
  attempts : Nat
  sleeps : List ℚ

/-- The retry loop: `i` is the zero-based index of the next attempt and the
second argument the number of attempts still allowed (`retries + 1 - i`,
positive throughout the run, so the 0-fuel arm is never reached from
`call_tool_with_retry`).  The `while attempt_index <= retries` loop is
unrolled one attempt at a time: a success returns immediately; a failure on
the last allowed attempt breaks out and raises the wrapping terminal error;
a failure with attempts remaining sleeps `backoff * 2 ^ i` (the source's
`backoff_seconds * (2 ** (attempt_index - 1))` after the increment) and
retries. -/
def retryLoop {A E : Type} (op : Nat → Except E A) (backoff : ℚ) :
    Nat → Nat → RetryResult A E
  | _, 0 => ⟨.error none, 0, []⟩
  | i, 1 =>
    (match op i with
     | .ok a => ⟨.ok a, 1, []⟩
     | .error e => ⟨.error (some e), 1, []⟩)
  | i, rem + 2 =>
    (match op i with
     | .ok a => ⟨.ok a, 1, []⟩
     | .error e =>
       let r := retryLoop op backoff (i + 1) (rem + 1)
       ⟨r.outcome, r.attempts + 1, backoff * 2 ^ i :: r.sleeps⟩)

/-- `call_tool_with_retry`: at most `retries + 1` attempts starting at
attempt index 0. -/
def call_tool_with_retry {A E : Type} (op : Nat → Except E A)
    (retries : Nat) (backoff : ℚ) : RetryResult A E :=
  retryLoop op backoff 0 (retries + 1)

theorem retryLoop_spec {A E : Type} (op : Nat → Except E A) (backoff : ℚ) :
    ∀ (rem i : Nat), 0 < rem →
      1 ≤ (retryLoop op backoff i rem).attempts
      ∧ (retryLoop op backoff i rem).attempts ≤ rem
      ∧ (∀ j, j < (retryLoop op backoff i rem).attempts - 1 → ∃ e, op (i + j) = .error e)
      ∧ (retryLoop op backoff i rem).sleeps
        = (List.range ((retryLoop op backoff i rem).attempts - 1)).map
            (fun j => backoff * 2 ^ (i + j))
      ∧ (∀ a, (retryLoop op backoff i rem).outcome = .ok a →
          op (i + ((retryLoop op backoff i rem).attempts - 1)) = .ok a)
      ∧ (∀ w, (retryLoop op backoff i rem).outcome = .error w →
          (retryLoop op backoff i rem).attempts = rem
          ∧ ∃ e, op (i + rem - 1) = .error e ∧ w = some e) := by
  intro rem
  induction rem with
  | zero => intro i h; omega
  | succ rem ih =>
    intro i _
    cases rem with
    | zero =>
      simp only [Nat.zero_add]
      cases hop : op i with
      | ok a =>
        have hatt : (retryLoop op backoff i 1).attempts = 1 := by rw [retryLoop, hop]
        have hout : (retryLoop op backoff i 1).outcome = .ok a := by rw [retryLoop, hop]
        have hsl : (retryLoop op backoff i 1).sleeps = [] := by rw [retryLoop, hop]
        rw [hatt, hout, hsl]
        refine ⟨le_refl 1, le_refl 1, fun j hj => absurd hj (by omega), by simp, ?_, ?_⟩
        · intro a2 ha
          cases ha
          simpa using hop
        · intro w hw
          exact Except.noConfusion hw
      | error e =>
        have hatt : (retryLoop op backoff i 1).attempts = 1 := by rw [retryLoop, hop]
        have hout : (retryLoop op backoff i 1).outcome = .error (some e) := by
          rw [retryLoop, hop]
        have hsl : (retryLoop op backoff i 1).sleeps = [] := by rw [retryLoop, hop]
        rw [hatt, hout, hsl]
        refine ⟨le_refl 1, le_refl 1, fun j hj => absurd hj (by omega), by simp, ?_, ?_⟩
        · intro a ha
          exact Except.noConfusion ha
        · intro w hw
          cases hw
          exact ⟨rfl, e, by simpa using hop, rfl⟩
    | succ rem' =>
      cases hop : op i with
      | ok a =>
        have hatt : (retryLoop op backoff i (rem' + 1 + 1)).attempts = 1 := by
          rw [retryLoop, hop]
        have hout : (retryLoop op backoff i (rem' + 1 + 1)).outcome = .ok a := by
          rw [retryLoop, hop]
        have hsl : (retryLoop op backoff i (rem' + 1 + 1)).sleeps = [] := by
          rw [retryLoop, hop]
        rw [hatt, hout, hsl]
        refine ⟨le_refl 1, by omega, fun j hj => absurd hj (by omega), by simp, ?_, ?_⟩
        · intro a2 ha
          cases ha
          simpa using hop
        · intro w hw
          exact Except.noConfusion hw
      | error e =>
        obtain ⟨h1, h2, h3, h4, h5, h6⟩ := ih (i + 1) (by omega)
        have hatt : (retryLoop op backoff i (rem' + 1 + 1)).attempts
            = (retryLoop op backoff (i + 1) (rem' + 1)).attempts + 1 := by
          rw [retryLoop, hop]
        have hout : (retryLoop op backoff i (rem' + 1 + 1)).outcome
            = (retryLoop op backoff (i + 1) (rem' + 1)).outcome := by
          rw [retryLoop, hop]
        have hsl : (retryLoop op backoff i (rem' + 1 + 1)).sleeps
            = backoff * 2 ^ i :: (retryLoop op backoff (i + 1) (rem' + 1)).sleeps := by
          rw [retryLoop, hop]
        rw [hatt, hout, hsl]
        refine ⟨by omega, by omega, ?_, ?_, ?_, ?_⟩
        · intro j hj
          cases j with
          | zero => exact ⟨e, by simpa using hop⟩
          | succ j' =>
            obtain ⟨e', he'⟩ := h3 j' (by omega)
            refine ⟨e', ?_⟩
            have hidx : i + 1 + j' = i + (j' + 1) := by omega
            rw [← hidx]
            exact he'
        · rw [h4]
          have hm : (retryLoop op backoff (i + 1) (rem' + 1)).attempts + 1 - 1
              = ((retryLoop op backoff (i + 1) (rem' + 1)).attempts - 1) + 1 := by omega
          rw [hm, List.range_succ_eq_map, List.map_cons, List.map_map]
          refine congrArg₂ List.cons (by rw [Nat.add_zero]) ?_
          refine List.map_congr_left (fun j _ => ?_)
          simp only [Function.comp]
          have hidx : i + Nat.succ j = i + 1 + j := by omega
          rw [hidx]
        · intro a ha
          have := h5 a ha
          have hidx : i + 1 + ((retryLoop op backoff (i + 1) (rem' + 1)).attempts - 1)
              = i + ((retryLoop op backoff (i + 1) (rem' + 1)).attempts + 1 - 1) := by
            omega
          rwa [hidx] at this
        · intro w hw
          obtain ⟨ha, e', he', hw'⟩ := h6 w hw
          refine ⟨by omega, e', ?_, hw'⟩
          have hidx : i + 1 + (rem' + 1) - 1 = i + (rem' + 1 + 1) - 1 := by omega
          rwa [hidx] at he'

/-- C6: the retry wrapper makes at least one and at most `retries + 1`
attempts; on success the result is that of the first successful attempt
(every earlier attempt raised); before each retried attempt it sleeps
`backoff * 2 ^ (attempt - 1)` seconds, so the sleep sequence is exactly
`backoff * 2 ^ 0, …, backoff * 2 ^ (attempts - 2)`; and when every attempt
raises it performs exactly `retries + 1` attempts and fails with the
terminal error wrapping the last underlying failure. -/
theorem call_tool_retry_behavior {A E : Type} (op : Nat → Except E A)
    (retries : Nat) (backoff : ℚ) :
    1 ≤ (call_tool_with_retry op retries backoff).attempts
    ∧ (call_tool_with_retry op retries backoff).attempts ≤ retries + 1
    ∧ (call_tool_with_retry op retries backoff).sleeps
      = (List.range ((call_tool_with_retry op retries backoff).attempts - 1)).map
          (fun j => backoff * 2 ^ j)
    ∧ (∀ a, (call_tool_with_retry op retries backoff).outcome = .ok a →
        op ((call_tool_with_retry op retries backoff).attempts - 1) = .ok a
        ∧ ∀ j, j < (call_tool_with_retry op retries backoff).attempts - 1 →
            ∃ e, op j = .error e)
    ∧ (∀ w, (call_tool_with_retry op retries backoff).outcome = .error w →
        (call_tool_with_retry op retries backoff).attempts = retries + 1
        ∧ (∀ j, j ≤ retries → ∃ e, op j = .error e)
        ∧ ∃ e, op retries = .error e ∧ w = some e) := by
  obtain ⟨h1, h2, h3, h4, h5, h6⟩ := retryLoop_spec op backoff (retries + 1) 0 (by omega)
  refine ⟨h1, h2, ?_, ?_, ?_⟩
  · rw [call_tool_with_retry, h4]
    exact List.map_congr_left (fun j _ => by rw [Nat.zero_add])
  · intro a ha
    refine ⟨?_, ?_⟩
    · have := h5 a ha
      rwa [Nat.zero_add] at this
    · intro j hj
      obtain ⟨e, he⟩ := h3 j hj
      exact ⟨e, by rwa [Nat.zero_add] at he⟩
  · intro w hw
    obtain ⟨ha, e, he, hw'⟩ := h6 w hw
    have hlast : op retries = .error e := by
      have hidx : 0 + (retries + 1) - 1 = retries := by omega
      rwa [hidx] at he
    refine ⟨ha, ?_, e, hlast, hw'⟩
    intro j hj
    by_cases hjr : j = retries
    · subst hjr
      exact ⟨e, hlast⟩
    · obtain ⟨e', he'⟩ := h3 j (by rw [ha]; omega)
      exact ⟨e', by rwa [Nat.zero_add] at he'⟩

theorem call_tool_retry_behavior_witness :
    (fun j : Nat => if j < 2 then (Except.error "boom" : Except String Nat) else .ok 7)
      ((call_tool_with_retry
        (fun j : Nat => if j < 2 then (Except.error "boom" : Except String Nat) else .ok 7)
        2 (3 / 4)).attempts - 1) = .ok 7 :=
  ((call_tool_retry_behavior
    (fun j : Nat => if j < 2 then (Except.error "boom" : Except String Nat) else .ok 7)
    2 (3 / 4)).2.2.2.1 7 (by rfl)).1

/-!
Path expansion (`expand_output_path_template` with
`timestamp_yyyymmdd_hhmmss`, capture_network.py lines 73-82).

The current local time is a parameter of the model (the source reads the
wall clock); `strftime("%Y%m%d_%H%M%S")` zero-pads each field, which is
modelled by explicit digit extraction (faithful for in-range fields, hence
the `Valid` hypothesis).  `os.path.expanduser` is modelled for the `~` and
`~/...` forms; the `~user` form is returned unchanged (as Python does when
the user is unknown) and no claim exercises it.
-/

structure Timestamp where
  year : Nat
  month : Nat
  day : Nat
  hour : Nat
  minute : Nat
  second : Nat

def Timestamp.Valid (t : Timestamp) : Prop :=
  t.year ≤ 9999 ∧ 1 ≤ t.month ∧ t.month ≤ 12 ∧ 1 ≤ t.day ∧ t.day ≤ 31
    ∧ t.hour ≤ 23 ∧ t.minute ≤ 59 ∧ t.second ≤ 59

/-- Two-digit zero-padded decimal rendering (`%m`, `%d`, `%H`, `%M`, `%S`). -/
def pad2 (n : Nat) : List Char :=
  [Char.ofNat (48 + n / 10 % 10), Char.ofNat (48 + n % 10)]

/-- Four-digit zero-padded decimal rendering (`%Y` for years up to 9999). -/
def pad4 (n : Nat) : List Char :=
  [Char.ofNat (48 + n / 1000 % 10), Char.ofNat (48 + n / 100 % 10),
   Char.ofNat (48 + n / 10 % 10), Char.ofNat (48 + n % 10)]

/-- `timestamp_yyyymmdd_hhmmss`: the current local time formatted
`YYYYMMDD_HHMMSS`. -/
def timestamp_yyyymmdd_hhmmss (t : Timestamp) : List Char :=
  (pad4 t.year ++ pad2 t.month ++ pad2 t.day)
    ++ '_' :: (pad2 t.hour ++ pad2 t.minute ++ pad2 t.second)

/-- The literal `\x7bts\x7d` placeholder. -/
def tsPat : List Char := ['\x7b', 't', 's', '\x7d']

/-- Python `str.replace`: replace every non-overlapping occurrence of `pat`
(scanning left to right) by `repl`.  Only called with the non-empty pattern
`tsPat`. -/
def replaceAll (pat repl : List Char) : List Char → List Char
  | [] => []
  | c :: cs =>
    if pat.isPrefixOf (c :: cs) ∧ pat ≠ [] then
      repl ++ replaceAll pat repl (cs.drop (pat.length - 1))
    else c :: replaceAll pat repl cs
termination_by s => s.length
decreasing_by
  all_goals simp only [List.length_cons, List.length_drop]
  all_goals omega

/-- Model of `os.path.expanduser`. -/
def expanduser (home : List Char) (p : List Char) : List Char :=
  match p with
  | [] => []
  | c :: rest =>
    if c = '~' then
      (match rest with
       | [] => home
       | c2 :: rest2 => if c2 = '/' then home ++ (c2 :: rest2) else c :: rest)
    else c :: rest

/-- `expand_output_path_template`: replace `\x7bts\x7d` with the current
timestamp, then expand a leading home shorthand. -/
def expand_output_path_template (t : Timestamp) (home template : List Char) : List Char :=
  expanduser home (replaceAll tsPat (timestamp_yyyymmdd_hhmmss t) template)

theorem replaceAll_not_contains {repl s : List Char} (h : '\x7b' ∉ s) :
    replaceAll tsPat repl s = s := by
  induction s with
  | nil => rw [replaceAll]
  | cons c cs ih =>
    have hc : c ≠ '\x7b' := fun hc => h (hc ▸ List.mem_cons_self c cs)
    have hnp : ¬(tsPat.isPrefixOf (c :: cs) ∧ tsPat ≠ []) := by
      rintro ⟨hp, -⟩
      rcases (List.isPrefixOf_iff_prefix.mp hp) with ⟨s2, hs2⟩
      rw [show tsPat = '\x7b' :: ['t', 's', '\x7d'] from rfl] at hs2
      rw [List.cons_append] at hs2
      exact hc (List.head_eq_of_cons_eq hs2.symm)
    rw [replaceAll, if_neg hnp, ih (fun hm => h (List.mem_cons_of_mem c hm))]

theorem replaceAll_concat {repl x y : List Char} (h : '\x7b' ∉ x) :
    replaceAll tsPat repl (x ++ y) = x ++ replaceAll tsPat repl y := by
  induction x with
  | nil => rw [List.nil_append, List.nil_append]
  | cons c cs ih =>
    have hc : c ≠ '\x7b' := fun hc => h (hc ▸ List.mem_cons_self c cs)
    have hnp : ¬(tsPat.isPrefixOf (c :: (cs ++ y)) ∧ tsPat ≠ []) := by
      rintro ⟨hp, -⟩
      rcases (List.isPrefixOf_iff_prefix.mp hp) with ⟨s2, hs2⟩
      rw [show tsPat = '\x7b' :: ['t', 's', '\x7d'] from rfl] at hs2
      rw [List.cons_append] at hs2
      exact hc (List.head_eq_of_cons_eq hs2.symm)
    rw [List.cons_append, replaceAll, if_neg hnp,
      ih (fun hm => h (List.mem_cons_of_mem c hm))]
    rfl

theorem replaceAll_hit (repl z : List Char) :
    replaceAll tsPat repl (tsPat ++ z) = repl ++ replaceAll tsPat repl z := by
  show replaceAll tsPat repl ('\x7b' :: (['t', 's', '\x7d'] ++ z)) = _
  rw [replaceAll,
    if_pos (show tsPat.isPrefixOf ('\x7b' :: (['t', 's', '\x7d'] ++ z)) = true
        ∧ tsPat ≠ [] from
      And.intro (List.isPrefixOf_iff_prefix.mpr ⟨z, rfl⟩) (by decide))]
  rfl

theorem pad_digit_char (m : Nat) : (Char.ofNat (48 + m % 10)).isDigit = true := by
  have hv : (48 + m % 10).isValidChar := Or.inl (by omega)
  have ht := char_ofNat_toNat hv
  exact char_isDigit_intro (by omega) (by omega)

theorem pad2_spec (n : Nat) : (pad2 n).length = 2 ∧ ∀ c ∈ pad2 n, c.isDigit = true := by
  refine ⟨rfl, ?_⟩
  intro c hc
  rcases List.mem_cons.mp hc with rfl | hc
  · exact pad_digit_char (n / 10)
  · rw [List.mem_singleton.mp hc]
    exact pad_digit_char n

theorem pad4_spec (n : Nat) : (pad4 n).length = 4 ∧ ∀ c ∈ pad4 n, c.isDigit = true := by
  refine ⟨rfl, ?_⟩
  intro c hc
  rcases List.mem_cons.mp hc with rfl | hc
  · exact pad_digit_char (n / 1000)
  · rcases List.mem_cons.mp hc with rfl | hc
    · exact pad_digit_char (n / 100)
    · rcases List.mem_cons.mp hc with rfl | hc
      · exact pad_digit_char (n / 10)
      · rw [List.mem_singleton.mp hc]
        exact pad_digit_char n

theorem digit_ne_lb {c : Char} (h : c.isDigit = true) : c ≠ '\x7b' := by
  have hv : 48 ≤ c.toNat ∧ c.toNat ≤ 57 := by
    simp only [Char.isDigit, decide_eq_true_eq, Bool.and_eq_true] at h
    exact ⟨h.1, h.2⟩
  intro hc
  subst hc
  exact absurd hv (by decide)

theorem stamp_no_lb (t : Timestamp) : '\x7b' ∉ timestamp_yyyymmdd_hhmmss t := by
  intro hmem
  rw [timestamp_yyyymmdd_hhmmss] at hmem
  have hd : ∀ (n : Nat), '\x7b' ∉ pad2 n := by
    intro n hm
    exact digit_ne_lb ((pad2_spec n).2 _ hm) rfl
  have hd4 : '\x7b' ∉ pad4 t.year := by
    intro hm
    exact digit_ne_lb ((pad4_spec t.year).2 _ hm) rfl
  rcases List.mem_append.mp hmem with h | h
  · rcases List.mem_append.mp h with h | h
    · rcases List.mem_append.mp h with h | h
      · exact hd4 h
      · exact hd t.month h
    · exact hd t.day h
  · rcases List.mem_cons.mp h with h | h
    · exact absurd h (by decide)
    · rcases List.mem_append.mp h with h | h
      · rcases List.mem_append.mp h with h | h
        · exact hd t.hour h
        · exact hd t.minute h
      · exact hd t.second h

theorem expanduser_cases (home x : List Char) :
    expanduser home x = x
    ∨ (∃ rest, x = '~' :: rest
        ∧ (expanduser home x = home ++ rest ∨ (rest = [] ∧ expanduser home x = home))) := by
  cases x with
  | nil => exact Or.inl rfl
  | cons c rest =>
    by_cases hc : c = '~'
    · subst hc
      cases rest with
      | nil => exact Or.inr ⟨[], rfl, Or.inr ⟨rfl, by simp [expanduser.eq_def]⟩⟩
      | cons c2 rest2 =>
        by_cases hc2 : c2 = '/'
        · subst hc2
          exact Or.inr ⟨'/' :: rest2, rfl, Or.inl (by simp [expanduser.eq_def])⟩
        · exact Or.inl (by simp [expanduser.eq_def, hc2])
    · exact Or.inl (by simp [expanduser.eq_def, hc])

theorem expanded_no_lb {p : List Char} (hp : '\x7b' ∉ p)
    (d1 d2 : List Char) (h1 : ∀ c ∈ d1, c.isDigit = true)
    (h2 : ∀ c ∈ d2, c.isDigit = true) :
    '\x7b' ∉ p ++ ("capture_".data ++ ((d1 ++ '_' :: d2) ++ ".jsonl".data)) := by
  intro hmem
  rcases List.mem_append.mp hmem with h | h
  · exact hp h
  rcases List.mem_append.mp h with h | h
  · exact absurd h (by decide)
  rcases List.mem_append.mp h with h | h
  · rcases List.mem_append.mp h with h | h
    · exact digit_ne_lb (h1 _ h) rfl
    · rcases List.mem_cons.mp h with h | h
      · exact absurd h (by decide)
      · exact digit_ne_lb (h2 _ h) rfl
  · exact absurd h (by decide)

theorem no_lb_no_tsPat {s : List Char} (h : '\x7b' ∉ s) :
    ∀ u v : List Char, s ≠ u ++ (tsPat ++ v) := by
  intro u v he
  apply h
  rw [he]
  exact List.mem_append.mpr (Or.inr (List.mem_append.mpr (Or.inl (by decide))))

/-- C8.  `expand_output_path_template` replaces every `\x7bts\x7d` in the
template with the local timestamp formatted `YYYYMMDD_HHMMSS` and expands a
leading home shorthand: for any template of the shape
`<pre>capture_\x7bts\x7d.jsonl` (no stray `\x7b` in the prefix or in the
home directory), the result is `<p>capture_<8 digits>_<6 digits>.jsonl`
and contains no literal `\x7bts\x7d` substring. -/
theorem expand_template_shape (t : Timestamp) (home pre : List Char)
    (hv : t.Valid) (hpre : '\x7b' ∉ pre) (hhome : '\x7b' ∉ home) :
    ∃ p d1 d2,
      expand_output_path_template t home
          (pre ++ ("capture_".data ++ (tsPat ++ ".jsonl".data)))
        = p ++ ("capture_".data ++ ((d1 ++ '_' :: d2) ++ ".jsonl".data))
      ∧ d1.length = 8 ∧ (∀ c ∈ d1, c.isDigit = true)
      ∧ d2.length = 6 ∧ (∀ c ∈ d2, c.isDigit = true)
      ∧ '\x7b' ∉ p
      ∧ ∀ u v : List Char,
          p ++ ("capture_".data ++ ((d1 ++ '_' :: d2) ++ ".jsonl".data))
            ≠ u ++ (tsPat ++ v) := by
  have hlen1 : (pad4 t.year ++ pad2 t.month ++ pad2 t.day).length = 8 := by
    simp [pad4, pad2]
  have hdig1 : ∀ c ∈ pad4 t.year ++ pad2 t.month ++ pad2 t.day, c.isDigit = true := by
    intro c hc
    rcases List.mem_append.mp hc with h | h
    · rcases List.mem_append.mp h with h | h
      · exact (pad4_spec t.year).2 _ h
      · exact (pad2_spec t.month).2 _ h
    · exact (pad2_spec t.day).2 _ h
  have hlen2 : (pad2 t.hour ++ pad2 t.minute ++ pad2 t.second).length = 6 := by
    simp [pad2]
  have hdig2 : ∀ c ∈ pad2 t.hour ++ pad2 t.minute ++ pad2 t.second, c.isDigit = true := by
    intro c hc
    rcases List.mem_append.mp hc with h | h
    · rcases List.mem_append.mp h with h | h
      · exact (pad2_spec t.hour).2 _ h
      · exact (pad2_spec t.minute).2 _ h
    · exact (pad2_spec t.second).2 _ h
  have hrepl : replaceAll tsPat (timestamp_yyyymmdd_hhmmss t)
      (pre ++ ("capture_".data ++ (tsPat ++ ".jsonl".data)))
      = pre ++ ("capture_".data ++ (timestamp_yyyymmdd_hhmmss t ++ ".jsonl".data)) := by
    rw [replaceAll_concat hpre,
      replaceAll_concat (show '\x7b' ∉ ("capture_".data : List Char) by decide),
      replaceAll_hit,
      replaceAll_not_contains (show '\x7b' ∉ (".jsonl".data : List Char) by decide)]
  rcases expanduser_cases home
      (pre ++ ("capture_".data ++ (timestamp_yyyymmdd_hhmmss t ++ ".jsonl".data)))
    with hid | ⟨rest, hrest, hcase⟩
  · refine ⟨pre, _, _, ?_, hlen1, hdig1, hlen2, hdig2, hpre,
      no_lb_no_tsPat (expanded_no_lb hpre _ _ hdig1 hdig2)⟩
    rw [expand_output_path_template, hrepl, hid]
    rfl
  · rcases hcase with hres | ⟨hnil, -⟩
    · cases pre with
      | nil =>
        exfalso
        rw [List.nil_append] at hrest
        rw [show ("capture_".data : List Char) = 'c' :: "apture_".data from rfl,
          List.cons_append] at hrest
        exact absurd (List.head_eq_of_cons_eq hrest) (by decide)
      | cons a pre2 =>
        rw [List.cons_append] at hrest
        have ha : a = '~' := List.head_eq_of_cons_eq hrest
        have htail : pre2 ++ ("capture_".data
              ++ (timestamp_yyyymmdd_hhmmss t ++ ".jsonl".data)) = rest :=
          List.tail_eq_of_cons_eq hrest
        have hpp : '\x7b' ∉ home ++ pre2 := by
          intro hm
          rcases List.mem_append.mp hm with h | h
          · exact hhome h
          · exact hpre (List.mem_cons_of_mem a h)
        refine ⟨home ++ pre2, _, _, ?_, hlen1, hdig1, hlen2, hdig2, hpp,
          no_lb_no_tsPat (expanded_no_lb hpp _ _ hdig1 hdig2)⟩
        rw [expand_output_path_template, hrepl, hres, ← htail,
          List.append_assoc home pre2]
        rfl
    · exfalso
      subst hnil
      have hlen := congrArg List.length hrest
      have hc8 : ("capture_".data : List Char).length = 8 := rfl
      have hj6 : (".jsonl".data : List Char).length = 6 := rfl
      simp [List.length_append, hc8, hj6] at hlen
      omega

theorem expand_template_shape_witness :
    (Timestamp.Valid ⟨2024, 5, 17, 9, 30, 5⟩
      ∧ '\x7b' ∉ ('~' :: '/' :: 'x' :: '/' :: ([] : List Char))
      ∧ '\x7b' ∉ ('/' :: 'h' :: ([] : List Char)))
    ∧ ∃ p d1 d2,
      expand_output_path_template ⟨2024, 5, 17, 9, 30, 5⟩
          ('/' :: 'h' :: ([] : List Char))
          (('~' :: '/' :: 'x' :: '/' :: ([] : List Char))
            ++ ("capture_".data ++ (tsPat ++ ".jsonl".data)))
        = p ++ ("capture_".data ++ ((d1 ++ '_' :: d2) ++ ".jsonl".data))
      ∧ d1.length = 8 ∧ (∀ c ∈ d1, c.isDigit = true)
      ∧ d2.length = 6 ∧ (∀ c ∈ d2, c.isDigit = true)
      ∧ '\x7b' ∉ p
      ∧ ∀ u v : List Char,
          p ++ ("capture_".data ++ ((d1 ++ '_' :: d2) ++ ".jsonl".data))
            ≠ u ++ (tsPat ++ v) :=
  ⟨⟨by unfold Timestamp.Valid; decide, by decide, by decide⟩,
   expand_template_shape ⟨2024, 5, 17, 9, 30, 5⟩
     ('/' :: 'h' :: ([] : List Char)) ('~' :: '/' :: 'x' :: '/' :: ([] : List Char))
     (by unfold Timestamp.Valid; decide) (by decide) (by decide)⟩
